import Mathlib

/-!
Verification of the DB48X bignum arithmetic core, opcode table ranges and
renderer against its natural-language specification.

The embedding follows the C++ sources:
  - src/src/bignum.cc   (bignum arithmetic: compare, multiply, quorem, pow,
                         as_integer, render_num)
  - src/src/loops.h     (second half of the file is renderer.cc: renderer::put)
  - src/src/errors.tbl  (error enumeration)
  - src/unnamed/part_000 (third section is the opcode table ids.tbl)

A bignum magnitude is a little-endian list of bytes; each byte is a `Nat`
constrained to be < 256 by the well-formedness predicate `bytesWf`.
-/

namespace DB48X

/-- Value of a little-endian byte list (payload of a bignum object):
byte `i` has weight `256 ^ i`. -/
def bval : List Nat → Nat
  | [] => 0
  | b :: bs => b + 256 * bval bs

/-- Well-formed byte list: every byte is an actual byte (< 256). -/
def bytesWf (l : List Nat) : Prop := ∀ b ∈ l, b < 256

instance (l : List Nat) : Decidable (bytesWf l) := by
  unfold bytesWf; infer_instance

/-- Normalized magnitude: no high-order zero byte, as produced by the
arithmetic kernels in bignum.cc (they strip high zero bytes of results). -/
def normalizedB (l : List Nat) : Prop := l.getLast? ≠ some 0

instance (l : List Nat) : Decidable (normalizedB l) := by
  unfold normalizedB; infer_instance

/-- Little-endian byte digits of `n` with explicit fuel (one unit of fuel
per byte; `n` units always suffice). -/
def toBytesF : Nat → Nat → List Nat
  | 0, _ => []
  | fuel+1, n => if n = 0 then [] else n % 256 :: toBytesF fuel (n / 256)

/-- Canonical little-endian byte list of a natural number (the byte strings
built by the kernels: normalized, value-faithful). -/
def toBytes (n : Nat) : List Nat := toBytesF n n

/-- The bignum type tags used by bignum.cc (`ID_bignum`, `ID_neg_bignum`,
`ID_based_bignum`). -/
inductive BigId where
  | bignum
  | neg_bignum
  | based_bignum
deriving DecidableEq, Repr

/-- A bignum object: tag plus little-endian magnitude bytes. -/
structure Bignum where
  ty : BigId
  mag : List Nat
deriving DecidableEq, Repr

/-- Signed value denoted by a bignum (sign-magnitude, sign in the tag). -/
def Bignum.val (b : Bignum) : Int :=
  if b.ty = .neg_bignum then -(bval b.mag : Int) else (bval b.mag : Int)

/-- Well-formed bignum: every magnitude byte is a byte. -/
def Bignum.wf (b : Bignum) : Prop := bytesWf b.mag

instance (b : Bignum) : Decidable b.wf := by
  unfold Bignum.wf; infer_instance

/-- Errors of errors.tbl reachable from the bignum kernels. -/
inductive Err where
  | zero_divide
  | number_too_big
deriving DecidableEq, Repr

instance {ε α : Type} [DecidableEq ε] [DecidableEq α] : DecidableEq (Except ε α) :=
  fun a b => by
    cases a with
    | error e1 =>
      cases b with
      | error e2 =>
        exact
          if h : e1 = e2 then .isTrue (by rw [h])
          else .isFalse (by intro hc; injection hc; exact h (by assumption))
      | ok v2 => exact .isFalse (by intro hc; injection hc)
    | ok v1 =>
      cases b with
      | error e2 => exact .isFalse (by intro hc; injection hc)
      | ok v2 =>
        exact
          if h : v1 = v2 then .isTrue (by rw [h])
          else .isFalse (by intro hc; injection hc; exact h (by assumption))

/-- The function `bignum::wordsize(id type)`: word size in bits used for truncation.
Modelled from the spec: bignum.h is not under src/; per spec §4.5 the
configurable word size `W` applies to the fixed-word-size (based) variants
only, and signed bignums are unbounded (word size 0 disables truncation in
bignum.cc). -/
def wordsize (W : Nat) : BigId → Nat
  | .based_bignum => W
  | _ => 0

/-- The function `bignum::product_type(yt, xt)`: result type of a product or quotient.
Modelled from the spec: bignum.h is not under src/; per spec §4.5 the
arithmetic is sign-magnitude, so the product of two signed bignums is
negative exactly when the signs differ, and based operands stay based. -/
def product_type (yt xt : BigId) : BigId :=
  match yt, xt with
  | .bignum, .bignum => .bignum
  | .bignum, .neg_bignum => .neg_bignum
  | .neg_bignum, .bignum => .neg_bignum
  | .neg_bignum, .neg_bignum => .bignum
  | _, _ => .based_bignum

/-! ## bignum::compare (src/src/bignum.cc lines 292-327)

The C++ first orders a `neg_bignum` below any other tag (unless comparing
magnitudes), then compares sizes (`int result = xs - ys;`), then scans the
byte arrays from the most significant byte down (`for (int i = xs - 1;
!result && i >= 0; i--) result = x[i] - y[i];`), and finally negates the
result if `x` is negative. -/

/-- The descending byte scan of `bignum::compare`, expressed on the
most-significant-first lists: the first (most significant) nonzero byte
difference wins. -/
def msdiff : List Nat → List Nat → Int
  | a :: as', b :: bs' => if (a : Int) - b ≠ 0 then (a : Int) - b else msdiff as' bs'
  | _, _ => 0

/-- Magnitude comparison of `bignum::compare`: size difference first, then
the descending byte scan. -/
def bcompare (x y : List Nat) : Int :=
  if x.length = y.length then msdiff x.reverse y.reverse
  else (x.length : Int) - (y.length : Int)

/-- The function `bignum::compare(x, y, magnitude)` (src/src/bignum.cc lines 292-327). -/
def compare (xg yg : Bignum) (magnitude : Bool) : Int :=
  if ¬magnitude ∧ xg.ty = .neg_bignum ∧ yg.ty ≠ .neg_bignum then -1
  else if ¬magnitude ∧ yg.ty = .neg_bignum ∧ xg.ty ≠ .neg_bignum then 1
  else
    let result := bcompare xg.mag yg.mag
    if ¬magnitude ∧ xg.ty = .neg_bignum then -result else result

/-- Value of a most-significant-first byte list (the reverse view used in
the descending scan of `bignum::compare`). -/
def bvalM (l : List Nat) : Nat := bval l.reverse

/-! ## bignum::quorem (src/src/bignum.cc lines 560-671)

Long binary division.  The C++ loops on the numerator bytes from the top
byte down (`for (int yi = ys-1; yi >= 0; yi--)`) and on each byte from bit
7 down to bit 0; per bit it shifts the remainder byte array left by one,
brings in the numerator bit, compares the remainder against the divisor
(the `delta` accumulation: the most significant byte difference, or the
size difference when the sizes differ), and on `delta >= 0` sets the
quotient bit and subtracts the divisor from the remainder. -/

/-- LSB-first list of the low `k` bits of a byte, as probed by the
`(1 << bit)` masks of the loops in bignum.cc. -/
def bitsLSB : Nat → Nat → List Bool
  | 0, _ => []
  | k+1, b => (b % 2 = 1) :: bitsLSB k (b / 2)

/-- Bit sequence of a little-endian byte list, most significant bit first:
the iteration order of the numerator loops of `bignum::quorem`. -/
def bitsMSB : List Nat → List Bool
  | [] => []
  | b :: bs => bitsMSB bs ++ (bitsLSB 8 b).reverse

/-- Value of an MSB-first bit string. -/
def valB : List Bool → Nat
  | [] => 0
  | b :: bs => 2 ^ bs.length * (if b then 1 else 0) + valB bs

/-- The per-bit loop of `bignum::quorem`, one step per numerator bit, most
significant bit first.  The byte-array state is represented by its value:
shifting the remainder left and bringing in the numerator bit is
`2*r + bit`; the accumulated `delta >= 0` test is `x ≤ r1` (the `delta`
scan yields the most significant byte difference between the remainder and
the divisor, or their size difference, i.e. the sign of `r1 - x`, both
byte strings being kept normalized by the top-zero stripping); setting the
quotient bit is `2*q + 1` and the borrow subtraction loop is `r1 - x`. -/
def quoremBits (x : Nat) : List Bool → Nat × Nat → Nat × Nat
  | [], s => s
  | b :: bs, (q, r) =>
    if x ≤ 2 * r + (if b then 1 else 0) then
      quoremBits x bs (2 * q + 1, 2 * r + (if b then 1 else 0) - x)
    else quoremBits x bs (2 * q, 2 * r + (if b then 1 else 0))

/-- Magnitude-level quotient and remainder computed by the division loop of
`bignum::quorem` (quotient and remainder byte arrays start at zero). -/
def quoremMag (y x : List Nat) : Nat × Nat := quoremBits (bval x) (bitsMSB y) (0, 0)

/-- The function `bignum::quorem(y, x, ty, q, r)` (src/src/bignum.cc lines 560-671).
A zero divisor (`x->is_zero()`) sets the `zero_divide` error and returns
false, modelled by `Except.error .zero_divide`.  Otherwise the division
loop runs; results are built only for the non-null output pointers
(`wantQ`/`wantR`).  For a based divisor type (`wbits = wordsize(xt)`
nonzero) the result byte counts are capped at `wbytes = (wbits + 7) / 8`
bytes, which at the value level is reduction modulo `256 ^ wbytes` (the
result byte arrays above the stored sizes are zero).  The magnitudes are
stored through `rt.make<bignum>`; `toBytes` builds the equivalent
little-endian byte string. -/
def quorem (W : Nat) (yg xg : Bignum) (ty : BigId) (wantQ wantR : Bool) :
    Except Err (Option Bignum × Option Bignum) :=
  if bval xg.mag = 0 then .error .zero_divide
  else
    let wbits := wordsize W xg.ty
    let wbytes := (wbits + 7) / 8
    let qr := quoremMag yg.mag xg.mag
    let q : Option Bignum := if wantQ then
        some ⟨ty, toBytes (if wbits ≠ 0 then qr.1 % 256 ^ wbytes else qr.1)⟩
      else none
    let r : Option Bignum := if wantR then
        some ⟨ty, toBytes (if wbits ≠ 0 then qr.2 % 256 ^ wbytes else qr.2)⟩
      else none
    .ok (q, r)

/-- The operator `operator/(y, x)` (src/src/bignum.cc lines 674-688): quotient with type
`bignum::product_type(yt, xt)`; null on failure. -/
def bigdiv (W : Nat) (y x : Bignum) : Option Bignum :=
  match quorem W y x (product_type y.ty x.ty) true false with
  | .ok (some q, _) => some q
  | _ => none

/-- The operator `operator%(y, x)` (src/src/bignum.cc lines 691-702): remainder with the
type `yt` of the numerator; null on failure. -/
def bigmod (W : Nat) (y x : Bignum) : Option Bignum :=
  match quorem W y x y.ty false true with
  | .ok (_, some r) => some r
  | _ => none

/-! ## bignum::multiply (src/src/bignum.cc lines 478-543)

Shift-and-add: the outer loops scan the bytes of `x` (low byte first) and
within a byte the bits `0..7` (stopping early once the remaining bits are
zero: `for (int bit = 0; xd && bit < 8; bit++)`); for each set bit the
inner carry loop adds `y << bit` into the result buffer at byte offset
`xi`, dropping everything at or beyond byte `needed` (the guards
`xi + yi < needed`), which at the value level is addition modulo
`256 ^ needed`. -/

/-- The 8-bit inner loop of `bignum::multiply` for one byte `xd` of `x`,
on values: `ysh` is `y` shifted to the current bit position (`y << bit` at
byte offset `xi`), `acc` the result buffer value, `M = 256 ^ needed` the
buffer capacity. -/
def mulBits : Nat → Nat → Nat → Nat → Nat → Nat
  | 0, _, _, acc, _ => acc
  | k+1, xd, ysh, acc, M =>
    if xd = 0 then acc
    else mulBits k (xd / 2) (ysh * 2)
      (if xd % 2 = 1 then (acc + ysh) % M else acc) M

/-- The byte loop of `bignum::multiply`: one `mulBits` pass per byte of
`x`, with `y` shifted one byte further each time. -/
def mulBytes : List Nat → Nat → Nat → Nat → Nat
  | [], _, acc, _ => acc
  | xd :: xs, ysh, acc, M => mulBytes xs (ysh * 256) (mulBits 8 xd ysh acc M) M

/-- The function `bignum::multiply(y, x, ty)` (src/src/bignum.cc lines 478-543).
`needed = xs + ys` bytes are allocated; if `needed * 8` exceeds the
`maxbignum` setting the `number_too_big` error is set and null returned.
For a based `x` type (`wbits = wordsize(xt)` nonzero) `needed` is capped
at `wbytes` bytes.  The trailing-zero strip of the result buffer is
`toBytes` of the computed value. -/
def multiply (maxbignum W : Nat) (yg xg : Bignum) (ty : BigId) : Except Err Bignum :=
  let xs := xg.mag.length
  let ys := yg.mag.length
  let wbits := wordsize W xg.ty
  let wbytes := (wbits + 7) / 8
  if (xs + ys) * 8 > maxbignum then .error .number_too_big
  else
    let needed := if wbits ≠ 0 ∧ xs + ys > wbytes then wbytes else xs + ys
    .ok ⟨ty, toBytes (mulBytes xg.mag (bval yg.mag) 0 (256 ^ needed))⟩

/-! ## bignum::pow (src/src/bignum.cc lines 705-731)

Square-and-multiply on the exponent magnitude bytes:
`for (size_t xi = 0; xi < xs; xi++) { byte xv = x[xi];
for (uint bit = 0; xv && bit < 8; bit++) { if (xv & 1) r = r * y;
xv >>= 1; if (xv || xi < xs-1) y = y * y; } }` -/

/-- The 8-bit inner loop of `bignum::pow` for one exponent byte `xv`, on
the magnitudes (`operator*` modelled as exact multiplication; the
`maxbignum` overflow path is not taken on the inputs considered).  Note
the loop condition `xv && bit < 8`: the byte is abandoned as soon as its
remaining bits are zero, even when further exponent bytes follow
(`lastByte = false`), in which case the pending squarings of `y` are
skipped. -/
def powBit : Nat → Nat → Nat → Nat → Bool → Nat × Nat
  | 0, _, r, y, _ => (r, y)
  | k+1, xv, r, y, lastByte =>
    if xv = 0 then (r, y)
    else
      powBit k (xv / 2)
        (if xv % 2 = 1 then r * y else r)
        (if xv / 2 ≠ 0 ∨ ¬lastByte then y * y else y)
        lastByte

/-- The byte loop of `bignum::pow` over the exponent magnitude,
accumulating `r` (starting from `bignum::make(1)`) and the running
square `y`. -/
def powMag : List Nat → Nat → Nat → Nat
  | [], r, _ => r
  | xd :: rest, r, y =>
    powMag rest (powBit 8 xd r y rest.isEmpty).1 (powBit 8 xd r y rest.isEmpty).2

/-- The function `bignum::pow(y, x)`: magnitude of the result, `r = 1` initially. -/
def bigpow (y x : Bignum) : Nat := powMag x.mag 1 (bval y.mag)

/-! ## bignum::as_integer (src/src/bignum.cc lines 88-102) -/

/-- Small integer tags (`ID_integer`, `ID_neg_integer`). -/
inductive IntId where
  | integer
  | neg_integer
deriving DecidableEq, Repr

/-- A small integer object as built by `rt.make<integer>(ty, value)`:
tag and `ularge` magnitude. -/
structure Integer where
  ty : IntId
  value : Nat
deriving DecidableEq, Repr

/-- Signed value of a small integer object. -/
def Integer.val (i : Integer) : Int :=
  if i.ty = .neg_integer then -(i.value : Int) else (i.value : Int)

/-- The `ularge` accumulation loop of `bignum::as_integer`
(`for (uint i = 0; i < size; i++) value |= ularge(p[i]) << (i * 8);`),
written with the shift distributed over the accumulated tail. -/
def uvalue : List Nat → Nat
  | [] => 0
  | b :: bs => b ||| (uvalue bs <<< 8)

/-- The function `bignum::as_integer()` (src/src/bignum.cc lines 88-102): null when the
stored magnitude has more than `sizeof(ularge)` = 8 bytes; otherwise a
small integer of the same value, `ID_neg_integer` exactly for
`ID_neg_bignum`. -/
def as_integer (b : Bignum) : Option Integer :=
  if b.mag.length > 8 then none
  else some ⟨if b.ty = .neg_bignum then .neg_integer else .integer, uvalue b.mag⟩

/-! ## render_num (src/src/bignum.cc lines 123-214)

For a non-negative bignum in base 10 (`RENDER_BODY(bignum)` calls
`render_num(r, o, 10, "")`), the do-while loop repeatedly divides the
number by the base with `bignum::quorem` (whose value-level behavior
`n % 10` / `n / 10` is proved in `quoremMag_spec`), emits
`char c = digit + '0'` least significant digit first, and inserts the
grouping separator after every `Settings.spacing_mantissa` digits while
the quotient is nonzero (`if (!n->is_zero() && ++sep == spacing)`); the
emitted substring is then reversed in place by `utf8_reverse`. -/

/-- The digit loop of `render_num`, producing the code points least
significant digit first; `n` is the bignum's value, `sep` the running
separator counter.  The do-while structure runs at least once, so zero
renders as a single `'0'`. -/
def renderLoop (spacing space : Nat) (n sep : Nat) : List Nat :=
  if h : n / 10 = 0 then [n % 10 + 48]
  else if sep + 1 = spacing then
    (n % 10 + 48) :: space :: renderLoop spacing space (n / 10) 0
  else (n % 10 + 48) :: renderLoop spacing space (n / 10) (sep + 1)
termination_by n
decreasing_by
  all_goals exact Nat.div_lt_self (by omega) (by norm_num)

/-- The base-10 rendering of a non-negative bignum, as the sequence of
emitted code points after the in-place reversal (`utf8_reverse(dest +
findex, dest + r.size(), multibyte)`).  utf8.h is not under src/;
modelled from the spec (§4.4): the reversal treats each code point as one
unit when the separator glyph is multibyte, and coincides with plain byte
reversal when every emitted code point is a single byte, so at the
code-point level it is `List.reverse` in both cases. -/
def renderNum (n spacing space : Nat) : List Nat :=
  (renderLoop spacing space n 0).reverse

/-- The decimal digits of `n` least significant first, as produced by
repeated division ( `[0]` for zero, since the loop runs at least once). -/
def decDigitsLSB (n : Nat) : List Nat := if n = 0 then [0] else Nat.digits 10 n

/-- The standard decimal digit string of `n`, most significant digit
first, as ASCII code points. -/
def decString (n : Nat) : List Nat := ((decDigitsLSB n).map (fun d => d + 48)).reverse

/-- Modelled from the spec's words ("inserting the grouping separator
every spacing_mantissa digits"): insert `space` after every `spacing`
digits of a least-significant-first digit string, counting from the
position `sep`, but never after the last (most significant) digit. -/
def withSeps (spacing space : Nat) : List Nat → Nat → List Nat
  | [], _ => []
  | [d], _ => [d]
  | d :: d' :: ds, sep =>
    if sep + 1 = spacing then d :: space :: withSeps spacing space (d' :: ds) 0
    else d :: withSeps spacing space (d' :: ds) (sep + 1)

/-! ## The opcode table (src/unnamed/part_000, ids.tbl section)

The enumeration below lists every `ID`/`CMD`/`NAMED`/`OP`/`MENU` entry of
the table in declaration order, with `CONFIG_FIXED_BASED_OBJECTS` enabled
(the configuration the spec's example "all integer kinds lie between
hex_integer and neg_integer" refers to; the other configuration merely
drops the eight fixed-based entries and starts the same ranges at
based_integer / based_bignum).  A kind's tag is its position in the
table (`ID.toCtorIdx`); the `FLAGS(range, first, last)` declarations
define the category predicates as inclusive tag comparisons. -/
set_option maxRecDepth 8192 in
/-- The opcode table, in declaration order. -/
inductive ID where
  | object
  | directory
  | text
  | list
  | program
  | block
  | array
  | menu
  | locals
  | «local»
  | symbol
  | equation
  | rectangular
  | polar
  | hex_integer
  | dec_integer
  | oct_integer
  | bin_integer
  | based_integer
  | hex_bignum
  | dec_bignum
  | oct_bignum
  | bin_bignum
  | based_bignum
  | bignum
  | neg_bignum
  | integer
  | neg_integer
  | fraction
  | neg_fraction
  | big_fraction
  | neg_big_fraction
  | decimal32
  | decimal64
  | decimal128
  | comment
  | grob
  | Drop
  | Drop2
  | DropN
  | Dup
  | Dup2
  | DupN
  | Swap
  | Over
  | Pick
  | Rot
  | Roll
  | RollD
  | Eval
  | Sto
  | Rcl
  | True
  | False
  | ToText
  | pi
  | ImaginaryUnit
  | add
  | sub
  | mul
  | div
  | mod
  | rem
  | neg
  | inv
  | sq
  | cubed
  | sqrt
  | abs
  | And
  | Or
  | Xor
  | NAnd
  | NOr
  | Implies
  | Equiv
  | Excludes
  | Not
  | same
  | TestSame
  | TestLT
  | TestEQ
  | TestGT
  | TestLE
  | TestNE
  | TestGE
  | asin
  | acos
  | atan
  | sin
  | cos
  | tan
  | asinh
  | acosh
  | atanh
  | sinh
  | cosh
  | tanh
  | log1p
  | expm1
  | log
  | log10
  | log2
  | exp
  | exp10
  | exp2
  | erf
  | erfc
  | tgamma
  | lgamma
  | fact
  | cbrt
  | pow
  | hypot
  | atan2
  | xroot
  | sign
  | re
  | im
  | arg
  | conj
  | det
  | ToDecimal
  | ToFraction
  | IfThen
  | IfThenElse
  | DoUntil
  | WhileRepeat
  | StartNext
  | StartStep
  | ForNext
  | ForStep
  | Depth
  | ToList
  | Get
  | Rewrite
  | Expand
  | Collect
  | Simplify
  | RealToComplex
  | ComplexToReal
  | ToRectangular
  | ToPolar
  | Purge
  | PurgeAll
  | Mem
  | FreeMemory
  | SystemMemory
  | GarbageCollect
  | home
  | CurrentDirectory
  | path
  | crdir
  | updir
  | pgdir
  | IFT
  | IFTE
  | IfErrThen
  | IfErrThenElse
  | errm
  | errn
  | err0
  | doerr
  | Disp
  | DispXY
  | Line
  | Ellipse
  | Circle
  | Rect
  | RRect
  | ClLCD
  | Draw
  | Drax
  | Function
  | Polar
  | Parametric
  | Clip
  | CurrentClip
  | GXor
  | GOr
  | GAnd
  | Pict
  | ToTag
  | FromTag
  | dtag
  | Cycle
  | RealToBinary
  | BinaryToReal
  | Ticks
  | Wait
  | Bytes
  | «Type»
  | TypeName
  | Version
  | Root
  | Integrate
  | Modes
  | ResetModes
  | Std
  | Fix
  | Sci
  | Eng
  | Sig
  | Deg
  | Rad
  | Grad
  | PiRadians
  | LowerCase
  | UpperCase
  | Capitalized
  | LongForm
  | DecimalDot
  | DecimalComma
  | NoTrailingDecimal
  | TrailingDecimal
  | Precision
  | StandardExponent
  | FancyExponent
  | ClassicExponent
  | Base
  | Bin
  | Oct
  | Dec
  | Hex
  | stws
  | rcws
  | ResultFontSize
  | StackFontSize
  | EditorFontSize
  | EditorMultilineFontSize
  | MantissaSpacing
  | FractionSpacing
  | BasedSpacing
  | NumberSpaces
  | NumberDotOrComma
  | NumberTicks
  | NumberUnderscore
  | BasedSpaces
  | BasedDotOrComma
  | BasedTicks
  | BasedUnderscore
  | AutoSimplify
  | NoAutoSimplify
  | NumericResults
  | SymbolicResults
  | MaxBigNumBits
  | MaxRewrites
  | ToFractionIterations
  | ToFractionDigits
  | SingleRowMenus
  | FlatMenus
  | ThreeRowsMenus
  | RoundedMenus
  | SquareMenus
  | LineWidth
  | Foreground
  | Background
  | GraphicsStackDisplay
  | TextStackDisplay
  | MainMenu
  | MathMenu
  | RealMenu
  | PartsMenu
  | FractionsMenu
  | PowersMenu
  | ComplexMenu
  | VectorMenu
  | MatrixMenu
  | AnglesMenu
  | HyperbolicMenu
  | ExpLogMenu
  | CircularMenu
  | BasesMenu
  | ProbabilitiesMenu
  | NumbersMenu
  | DebugMenu
  | StatisticsMenu
  | SignalProcessingMenu
  | ConstantsMenu
  | EquationsMenu
  | UnitsMenu
  | UnitsConversionsMenu
  | SymbolicMenu
  | IntegrationMenu
  | DifferentiationMenu
  | SolverMenu
  | PolynomialsMenu
  | NumericalSolverMenu
  | DifferentialSolverMenu
  | SymbolicSolverMenu
  | PolynomialSolverMenu
  | LinearSolverMenu
  | MultiSolverMenu
  | FinanceSolverMenu
  | ProgramMenu
  | TestsMenu
  | CompareMenu
  | LoopsMenu
  | ListMenu
  | StackMenu
  | ClearThingsMenu
  | ObjectMenu
  | FlagsMenu
  | CharsMenu
  | ModesMenu
  | DisplayModesMenu
  | SeparatorModesMenu
  | UserInterfaceModesMenu
  | MathModesMenu
  | PrintingMenu
  | IOMenu
  | FilesMenu
  | TimeMenu
  | PlotMenu
  | GraphicsMenu
  | MemMenu
  | LibsMenu
  | TextMenu
  | EditMenu
  | VariablesMenu
  | ToolsMenu
  | Catalog
  | LastMenu
  | Off
  | SaveState
  | SystemSetup
  | Help
  | Undo
  | LastArg
  | LastX
  | EditorSelect
  | EditorWordLeft
  | EditorWordRight
  | EditorBegin
  | EditorEnd
  | EditorCut
  | EditorCopy
  | EditorPaste
  | EditorSearch
  | EditorReplace
  | EditorClear
  | EditorFlip
  | Unimplemented
  | MenuNextPage
  | MenuPreviousPage
  | MenuFirstPage
  | VariablesMenuExecute
  | VariablesMenuRecall
  | VariablesMenuStore
  | SelfInsert
  | font
  | dense_font
  | sparse_font
  | dmcp_font
  | tag
deriving DecidableEq, Fintype

/-- Inclusive tag-range test, the form of every `FLAGS` category
predicate. -/
def inRange (first last k : ID) : Prop :=
  ID.toCtorIdx first ≤ ID.toCtorIdx k ∧ ID.toCtorIdx k ≤ ID.toCtorIdx last

instance (f l k : ID) : Decidable (inRange f l k) := by
  unfold inRange; infer_instance

/-- Declaration `FLAGS(is_integer, hex_integer, neg_integer)`. -/
def is_integer (k : ID) : Prop := inRange .hex_integer .neg_integer k

/-- Declaration `FLAGS(is_based, hex_integer, based_integer, hex_bignum, based_bignum)`:
two ranges. -/
def is_based (k : ID) : Prop :=
  inRange .hex_integer .based_integer k ∨ inRange .hex_bignum .based_bignum k

/-- Declaration `FLAGS(is_bignum, hex_bignum, neg_bignum)`. -/
def is_bignum (k : ID) : Prop := inRange .hex_bignum .neg_bignum k

/-- Declaration `FLAGS(is_fraction, fraction, neg_big_fraction)`. -/
def is_fraction (k : ID) : Prop := inRange .fraction .neg_big_fraction k

/-- Declaration `FLAGS(is_decimal, decimal32, decimal128)`. -/
def is_decimal (k : ID) : Prop := inRange .decimal32 .decimal128 k

/-- Declaration `FLAGS(is_real, bignum, decimal128)`. -/
def is_real (k : ID) : Prop := inRange .bignum .decimal128 k

/-- Declaration `FLAGS(is_complex, rectangular, polar)`. -/
def is_complex (k : ID) : Prop := inRange .rectangular .polar k

instance (k : ID) : Decidable (is_integer k) := by
  unfold is_integer; infer_instance

instance (k : ID) : Decidable (is_based k) := by
  unfold is_based; infer_instance

instance (k : ID) : Decidable (is_bignum k) := by
  unfold is_bignum; infer_instance

instance (k : ID) : Decidable (is_fraction k) := by
  unfold is_fraction; infer_instance

instance (k : ID) : Decidable (is_decimal k) := by
  unfold is_decimal; infer_instance

instance (k : ID) : Decidable (is_real k) := by
  unfold is_real; infer_instance

instance (k : ID) : Decidable (is_complex k) := by
  unfold is_complex; infer_instance

/-- The integer kinds of the data model (spec §3: integer/neg_integer,
the based and fixed-based integers, and the bignum variants). -/
def integerKinds : List ID :=
  [.hex_integer, .dec_integer, .oct_integer, .bin_integer, .based_integer,
   .hex_bignum, .dec_bignum, .oct_bignum, .bin_bignum, .based_bignum,
   .bignum, .neg_bignum, .integer, .neg_integer]

/-- The based (fixed word size) kinds of the data model. -/
def basedKinds : List ID :=
  [.hex_integer, .dec_integer, .oct_integer, .bin_integer, .based_integer,
   .hex_bignum, .dec_bignum, .oct_bignum, .bin_bignum, .based_bignum]

/-- The bignum kinds of the data model (spec §3:
bignum/neg_bignum/based_bignum and the fixed-based bignums). -/
def bignumKinds : List ID :=
  [.hex_bignum, .dec_bignum, .oct_bignum, .bin_bignum, .based_bignum,
   .bignum, .neg_bignum]

/-- The fraction kinds of the data model (spec §3: fraction/big_fraction,
signed variants). -/
def fractionKinds : List ID :=
  [.fraction, .neg_fraction, .big_fraction, .neg_big_fraction]

/-- The decimal kinds of the data model (spec §3: 32/64/128-bit). -/
def decimalKinds : List ID := [.decimal32, .decimal64, .decimal128]

/-- The real-number kinds: signed integers and bignums, fractions and
decimals, excluding the based (unsigned wrapped) kinds. -/
def realKinds : List ID :=
  [.bignum, .neg_bignum, .integer, .neg_integer,
   .fraction, .neg_fraction, .big_fraction, .neg_big_fraction,
   .decimal32, .decimal64, .decimal128]

/-- The complex kinds of the data model (spec §3: rectangular/polar). -/
def complexKinds : List ID := [.rectangular, .polar]


/-! ## renderer::put (renderer.cc, second section of src/src/loops.h,
lines 266-344)

The claim concerns a renderer whose target is a fixed-size buffer
(`target` non-null): the file-saving and scratchpad sinks go through the
file object and the runtime allocator, which are external to this model.
`put(char)` first flushes a pending `sign` (`put('+')`), then checks
`written >= length`, collapses spaces in `flat` mode, drops a space after
a line break, flushes a pending newline (`nl`) before a printable
character, stores the byte (`target[written++] = c`), and after a newline
emits `tabs` tab characters; a `"` toggles the `txt` flag. -/

/-- C `isspace` on byte values: space, \t, \n, \v, \f, \r. -/
def isSpaceC (c : Nat) : Bool :=
  c == 32 || c == 9 || c == 10 || c == 11 || c == 12 || c == 13

/-- Renderer state for a fixed-buffer target: buffer contents, capacity
(`length`), write cursor (`written`) and the formatting flags used by
`renderer::put(char)`. -/
structure RState where
  buf : Nat → Nat
  length : Nat
  written : Nat
  sign : Bool
  flat : Bool
  space : Bool
  cr : Bool
  nl : Bool
  txt : Bool
  tabs : Nat

/-- The tab-indent loop after a newline:
`for (uint i = 0; i < tabs; i++) if (!put('\t')) return false;`,
parameterized by the `put('\t')` call. -/
def putTabsWith (put1 : RState → Bool × RState) : Nat → RState → Bool × RState
  | 0, st => (true, st)
  | n+1, st =>
    match put1 st with
    | (false, st') => (false, st')
    | (true, st') => putTabsWith put1 n st'

/-- The store `target[written++] = c`. -/
def writeChar (st : RState) (c2 : Nat) : RState :=
  { st with buf := fun i => if i = st.written then c2 else st.buf i,
            written := st.written + 1 }

/-- The sign flush at the top of `renderer::put`:
`if (sign) { sign = false; if (c != '-' && c != '+') put('+'); }`
(the return value of the inner `put('+')` is ignored). -/
def signStep (rec1 : RState → Nat → Bool × RState) (st : RState) (c : Nat) : RState :=
  if st.sign then
    (if c ≠ 45 ∧ c ≠ 43 then (rec1 { st with sign := false } 43).2
     else { st with sign := false })
  else st

/-- The pending-newline flush:
`if (!isspace(c) && nl) { nl = false; if (!put('\n')) return false; }`. -/
def flushStep (rec1 : RState → Nat → Bool × RState) (st2 : RState) (c2 : Nat) :
    Bool × RState :=
  if ¬ isSpaceC c2 ∧ st2.nl then rec1 { st2 with nl := false } 10 else (true, st2)

/-- The block after writing a newline: `nl = false; if (!txt) for (tabs)
put('\t');` (the `cr = true` is applied by the caller on success). -/
def tabsStep (rec1 : RState → Nat → Bool × RState) (st4 : RState) : Bool × RState :=
  if ¬ st4.txt then putTabsWith (fun s => rec1 s 9) st4.tabs { st4 with nl := false }
  else (true, { st4 with nl := false })

/-- The final `if (c == '"') txt = !txt; return true;`. -/
def finishChar (st5 : RState) (c2 : Nat) : Bool × RState :=
  (true, if c2 = 34 then { st5 with txt := ! st5.txt } else st5)

/-- The store `target[written++] = c` and everything after it: the newline
tail (tab indents, `cr = true`) or the `cr` update for other characters,
then the `"` toggle. -/
def putTail (rec1 : RState → Nat → Bool × RState) (st3 : RState) (c2 : Nat) :
    Bool × RState :=
  if c2 = 10 then
    match tabsStep rec1 (writeChar st3 c2) with
    | (false, st5) => (false, st5)
    | (true, st5) => finishChar { st5 with cr := true } c2
  else
    finishChar (if ¬ isSpaceC c2 then { writeChar st3 c2 with cr := false }
                else writeChar st3 c2) c2

/-- After the flat-mode rewriting of `c` into `c2`: the space-after-break
drop `if (c == ' ' && (cr || nl)) { cr = false; return true; }`, then the
newline flush, then the store and its tail. -/
def putAfterFlat (rec1 : RState → Nat → Bool × RState) (st2 : RState) (c2 : Nat) :
    Bool × RState :=
  if c2 = 32 ∧ (st2.cr ∨ st2.nl) then (true, { st2 with cr := false })
  else
    match flushStep rec1 st2 c2 with
    | (false, st3) => (false, st3)
    | (true, st3) => putTail rec1 st3 c2

/-- The body of `renderer::put` after the sign flush: the
`written >= length` bound check, the flat-mode space collapsing
(`if (flat) { if (isspace(c)) { if (space || cr) return true;
c = ' '; space = true; } else space = false; }`), then the rest. -/
def putBody (rec1 : RState → Nat → Bool × RState) (st1 : RState) (c : Nat) :
    Bool × RState :=
  if st1.length ≤ st1.written then (false, st1)
  else if st1.flat ∧ isSpaceC c ∧ (st1.space ∨ st1.cr) then (true, st1)
  else putAfterFlat rec1
    (if st1.flat then { st1 with space := isSpaceC c } else st1)
    (if st1.flat ∧ isSpaceC c then 32 else c)

/-- The function `renderer::put(char c)` for a fixed-buffer renderer.  The recursive
calls (`put('+')` for the pending sign, `put('\n')` for the pending
newline, `put('\t')` in the tab loop) are guarded by a fuel argument;
the static call depth is at most 3, so any fuel ≥ 4 computes the C++
function (`renderer.put` fixes fuel = 4). -/
def putF : Nat → RState → Nat → Bool × RState
  | 0, st, _ => (false, st)
  | fuel+1, st, c => putBody (putF fuel) (signStep (putF fuel) st c) c

namespace renderer

/-- The method `renderer::put(char)` (fuel 4 covers the static recursion depth). -/
def put (st : RState) (c : Nat) : Bool × RState := putF 4 st c

end renderer

/-- The bound/frame invariant package of one `put` call: length preserved,
cursor monotone, bytes outside the written window untouched, a full
buffer rejected unchanged, cursor at most one past capacity, no growth
past capacity without a pending newline, and `nl` never turned on. -/
def PutInv (st : RState) (r : Bool × RState) : Prop :=
  r.2.length = st.length ∧
  st.written ≤ r.2.written ∧
  (∀ i, i < st.written ∨ r.2.written ≤ i → r.2.buf i = st.buf i) ∧
  (st.length ≤ st.written → r.1 = false ∧ r.2.written = st.written ∧ r.2.buf = st.buf) ∧
  (st.written ≤ st.length → r.2.written ≤ st.length + 1) ∧
  (st.written ≤ st.length → st.nl = false → r.2.written ≤ st.length) ∧
  (r.2.nl = true → st.nl = true)

/-! # Theorems -/

theorem toBytesF_congr : ∀ f1 f2 n : Nat, n ≤ f1 → n ≤ f2 →
    toBytesF f1 n = toBytesF f2 n := by
  intro f1
  induction f1 with
  | zero =>
    intro f2 n h1 _
    have : n = 0 := Nat.le_zero.mp h1
    subst this
    cases f2 with
    | zero => rfl
    | succ f2 => simp [toBytesF]
  | succ f1 ih =>
    intro f2 n h1 h2
    by_cases hn : n = 0
    · subst hn
      cases f2 with
      | zero => rfl
      | succ f2 => simp [toBytesF]
    · cases f2 with
      | zero => exact absurd (Nat.le_zero.mp h2) hn
      | succ f2 =>
        rw [toBytesF, toBytesF, if_neg hn, if_neg hn]
        have hd : n / 256 < n := Nat.div_lt_self (Nat.pos_of_ne_zero hn) (by norm_num)
        rw [ih f2 (n / 256) (by omega) (by omega)]

theorem toBytes_zero : toBytes 0 = [] := rfl

theorem toBytes_pos (n : Nat) (h : n ≠ 0) :
    toBytes n = n % 256 :: toBytes (n / 256) := by
  unfold toBytes
  cases hn : n with
  | zero => exact absurd hn h
  | succ m =>
    rw [toBytesF, if_neg (by omega : ¬ (m + 1 = 0))]
    have hd : (m + 1) / 256 < m + 1 := Nat.div_lt_self (by omega) (by norm_num)
    congr 1
    exact toBytesF_congr m ((m + 1) / 256) ((m + 1) / 256) (by omega) (le_refl _)

theorem bval_toBytes (n : Nat) : bval (toBytes n) = n := by
  induction n using Nat.strong_induction_on with
  | _ n ih =>
    by_cases h : n = 0
    · simp [h, toBytes_zero, bval]
    · rw [toBytes_pos n h]
      have hlt : n / 256 < n := Nat.div_lt_self (Nat.pos_of_ne_zero h) (by norm_num)
      simp only [bval, ih _ hlt]
      omega

theorem bytesWf_toBytes (n : Nat) : bytesWf (toBytes n) := by
  induction n using Nat.strong_induction_on with
  | _ n ih =>
    by_cases h : n = 0
    · simp [h, toBytes_zero, bytesWf]
    · rw [toBytes_pos n h]
      intro b hb
      rcases List.mem_cons.mp hb with h1 | h2
      · subst h1; exact Nat.mod_lt _ (by norm_num)
      · exact ih _ (Nat.div_lt_self (Nat.pos_of_ne_zero h) (by norm_num)) _ h2

theorem bval_lt (l : List Nat) (h : bytesWf l) : bval l < 256 ^ l.length := by
  induction l with
  | nil => simp [bval]
  | cons b bs ih =>
    have hb : b < 256 := h b (List.mem_cons_self _ _)
    have hbs : bval bs < 256 ^ bs.length := ih (fun x hx => h x (List.mem_cons_of_mem _ hx))
    simp only [bval, List.length_cons, pow_succ]
    calc b + 256 * bval bs < 256 + 256 * bval bs := by omega
    _ ≤ 256 * (bval bs + 1) := by ring_nf; omega
    _ ≤ 256 * 256 ^ bs.length := by
        exact Nat.mul_le_mul_left _ (by omega)
    _ = 256 ^ bs.length * 256 := by ring

theorem bval_ge_of_normalized (l : List Nat) (hn : normalizedB l) (hne : l ≠ []) :
    256 ^ (l.length - 1) ≤ bval l := by
  induction l with
  | nil => exact absurd rfl hne
  | cons b bs ih =>
    cases bs with
    | nil =>
      simp only [normalizedB, List.getLast?] at hn
      simp only [bval, List.length_cons, List.length_nil]
      have : b ≠ 0 := by
        intro hb; exact hn (by simp [hb, List.getLast?])
      simpa using Nat.one_le_iff_ne_zero.mpr this
    | cons c cs =>
      have hn' : normalizedB (c :: cs) := by
        simpa [normalizedB, List.getLast?_cons_cons] using hn
      have := ih hn' (by simp)
      simp only [bval, List.length_cons] at *
      have h2 : 256 ^ (cs.length + 1 - 1 + 1) ≤ 256 * bval (c :: cs) := by
        rw [pow_succ]
        calc 256 ^ (cs.length + 1 - 1) * 256 = 256 * 256 ^ (cs.length) := by
              simp [Nat.add_sub_cancel]; ring
        _ ≤ 256 * bval (c :: cs) := Nat.mul_le_mul_left _ (by simpa using this)
      calc 256 ^ (cs.length + 1 + 1 - 1) = 256 ^ (cs.length + 1 - 1 + 1) := by norm_num
      _ ≤ 256 * bval (c :: cs) := h2
      _ ≤ b + 256 * bval (c :: cs) := by omega

theorem bval_append (l1 l2 : List Nat) :
    bval (l1 ++ l2) = bval l1 + 256 ^ l1.length * bval l2 := by
  induction l1 with
  | nil => simp [bval]
  | cons b bs ih =>
    show bval (b :: (bs ++ l2)) = _
    rw [bval, ih]
    simp only [bval, List.length_cons, pow_succ]
    ring

theorem bvalM_cons (a : Nat) (p : List Nat) :
    bvalM (a :: p) = 256 ^ p.length * a + bvalM p := by
  simp only [bvalM, List.reverse_cons, bval_append, List.length_reverse, bval]
  ring_nf

theorem msdiff_spec : ∀ p q : List Nat, p.length = q.length →
    bytesWf p → bytesWf q →
    (0 < msdiff p q ↔ bvalM q < bvalM p) ∧ (msdiff p q = 0 ↔ bvalM p = bvalM q) := by
  intro p
  induction p with
  | nil =>
    intro q hl _ _
    have : q = [] := List.eq_nil_of_length_eq_zero hl.symm
    subst this
    simp [msdiff, bvalM, bval]
  | cons a p' ih =>
    intro q hl hwp hwq
    cases q with
    | nil => simp at hl
    | cons b q' =>
      simp only [List.length_cons, Nat.succ_inj] at hl
      have hwp' : bytesWf p' := fun x hx => hwp x (List.mem_cons_of_mem _ hx)
      have hwq' : bytesWf q' := fun x hx => hwq x (List.mem_cons_of_mem _ hx)
      have ha : a < 256 := hwp a (List.mem_cons_self _ _)
      have hb : b < 256 := hwq b (List.mem_cons_self _ _)
      have hp' : bvalM p' < 256 ^ p'.length := by
        simpa [bvalM, List.length_reverse] using
          bval_lt p'.reverse (fun x hx => hwp' x (List.mem_reverse.mp hx))
      have hq' : bvalM q' < 256 ^ q'.length := by
        simpa [bvalM, List.length_reverse] using
          bval_lt q'.reverse (fun x hx => hwq' x (List.mem_reverse.mp hx))
      rw [bvalM_cons, bvalM_cons, hl]
      simp only [msdiff]
      by_cases hab : (a : Int) - b ≠ 0
      · rw [if_pos hab]
        have hane : a ≠ b := by omega
        constructor
        · constructor
          · intro h
            have : b < a := by omega
            have : b + 1 ≤ a := this
            calc 256 ^ q'.length * b + bvalM q'
                < 256 ^ q'.length * b + 256 ^ q'.length := by omega
              _ = 256 ^ q'.length * (b + 1) := by ring
              _ ≤ 256 ^ q'.length * a := Nat.mul_le_mul_left _ this
              _ ≤ 256 ^ q'.length * a + bvalM p' := Nat.le_add_right _ _
          · intro h
            by_contra hc
            have hba : a < b := by omega
            have : 256 ^ q'.length * a + bvalM p' < 256 ^ q'.length * b + bvalM q' := by
              calc 256 ^ q'.length * a + bvalM p'
                  < 256 ^ q'.length * a + 256 ^ q'.length := by rw [hl] at hp'; omega
                _ = 256 ^ q'.length * (a + 1) := by ring
                _ ≤ 256 ^ q'.length * b := Nat.mul_le_mul_left _ hba
                _ ≤ 256 ^ q'.length * b + bvalM q' := Nat.le_add_right _ _
            omega
        · constructor
          · intro h; omega
          · intro h
            rcases Nat.lt_trichotomy a b with hlt | heq | hgt
            · have : 256 ^ q'.length * a + bvalM p' < 256 ^ q'.length * b + bvalM q' := by
                calc 256 ^ q'.length * a + bvalM p'
                    < 256 ^ q'.length * a + 256 ^ q'.length := by rw [hl] at hp'; omega
                  _ = 256 ^ q'.length * (a + 1) := by ring
                  _ ≤ 256 ^ q'.length * b := Nat.mul_le_mul_left _ hlt
                  _ ≤ 256 ^ q'.length * b + bvalM q' := Nat.le_add_right _ _
              omega
            · exact absurd heq hane
            · have : 256 ^ q'.length * b + bvalM q' < 256 ^ q'.length * a + bvalM p' := by
                calc 256 ^ q'.length * b + bvalM q'
                    < 256 ^ q'.length * b + 256 ^ q'.length := by omega
                  _ = 256 ^ q'.length * (b + 1) := by ring
                  _ ≤ 256 ^ q'.length * a := Nat.mul_le_mul_left _ hgt
                  _ ≤ 256 ^ q'.length * a + bvalM p' := Nat.le_add_right _ _
              omega
      · rw [if_neg hab]
        have hae : a = b := by omega
        subst hae
        have := ih q' hl hwp' hwq'
        constructor
        · rw [this.1]; omega
        · rw [this.2]; omega

theorem bcompare_spec (x y : List Nat) (hwx : bytesWf x) (hwy : bytesWf y)
    (hnx : normalizedB x) (hny : normalizedB y) :
    (0 < bcompare x y ↔ bval y < bval x) ∧ (bcompare x y = 0 ↔ bval x = bval y) := by
  unfold bcompare
  by_cases hl : x.length = y.length
  · rw [if_pos hl]
    have hwxr : bytesWf x.reverse := fun b hb => hwx b (List.mem_reverse.mp hb)
    have hwyr : bytesWf y.reverse := fun b hb => hwy b (List.mem_reverse.mp hb)
    have := msdiff_spec x.reverse y.reverse (by simpa using hl) hwxr hwyr
    simpa [bvalM] using this
  · rw [if_neg hl]
    rcases Nat.lt_or_ge x.length y.length with hlt | hge
    · have hyne : y ≠ [] := by
        intro h; subst h; simp at hlt
      have h1 : bval x < bval y := by
        calc bval x < 256 ^ x.length := bval_lt x hwx
          _ ≤ 256 ^ (y.length - 1) := Nat.pow_le_pow_right (by norm_num) (by omega)
          _ ≤ bval y := bval_ge_of_normalized y hny hyne
      constructor
      · constructor
        · intro h; omega
        · intro h; omega
      · constructor
        · intro h; omega
        · intro h; omega
    · have hgt : y.length < x.length := by omega
      have hxne : x ≠ [] := by
        intro h; subst h; simp at hgt
      have h1 : bval y < bval x := by
        calc bval y < 256 ^ y.length := bval_lt y hwy
          _ ≤ 256 ^ (x.length - 1) := Nat.pow_le_pow_right (by norm_num) (by omega)
          _ ≤ bval x := bval_ge_of_normalized x hnx hxne
      constructor
      · constructor
        · intro _; exact h1
        · intro _; omega
      · constructor
        · intro h; omega
        · intro h; omega

theorem compare_signed_order (x y : Bignum)
    (hwx : x.wf) (hwy : y.wf)
    (hnx : normalizedB x.mag) (hny : normalizedB y.mag)
    (hzx : x.ty = .neg_bignum → bval x.mag ≠ 0)
    (hzy : y.ty = .neg_bignum → bval y.mag ≠ 0) :
    ((compare x y false < 0 ↔ x.val < y.val) ∧
     (compare x y false = 0 ↔ x.val = y.val) ∧
     (0 < compare x y false ↔ y.val < x.val)) ∧
    (x.ty = .neg_bignum → y.ty ≠ .neg_bignum → compare x y false < 0) ∧
    ((compare x y true < 0 ↔ bval x.mag < bval y.mag) ∧
     (compare x y true = 0 ↔ bval x.mag = bval y.mag) ∧
     (0 < compare x y true ↔ bval y.mag < bval x.mag)) := by
  have hbc := bcompare_spec x.mag y.mag hwx hwy hnx hny
  have hbc' : bcompare x.mag y.mag < 0 ↔ bval x.mag < bval y.mag := by
    rcases Nat.lt_trichotomy (bval x.mag) (bval y.mag) with h | h | h
    · constructor
      · intro _; exact h
      · intro _
        rcases Int.lt_trichotomy (bcompare x.mag y.mag) 0 with h2 | h2 | h2
        · exact h2
        · exact absurd (hbc.2.mp h2) (by omega)
        · exact absurd (hbc.1.mp h2) (by omega)
    · constructor
      · intro h2
        have := (not_iff_not.mpr hbc.2).mpr ?_
        · omega
        · omega
      · omega
    · constructor
      · intro h2
        have := hbc.1.mpr h
        omega
      · omega
  unfold compare
  refine ⟨?_, ?_, ?_⟩
  · by_cases hx : x.ty = .neg_bignum
    · by_cases hy : y.ty = .neg_bignum
      · simp only [hx, hy, Bignum.val, if_pos]
        have h1 : ¬(¬false = true ∧ x.ty = BigId.neg_bignum ∧ ¬y.ty = BigId.neg_bignum) := by
          simp [hx, hy]
        have h2 : ¬(¬false = true ∧ y.ty = BigId.neg_bignum ∧ ¬x.ty = BigId.neg_bignum) := by
          simp [hx, hy]
        rw [if_neg (by simp [hx, hy]), if_neg (by simp [hx, hy]), if_pos (by simp [hx])]
        constructor
        · constructor
          · intro h
            have : 0 < bcompare x.mag y.mag := by omega
            have := hbc.1.mp this
            omega
          · intro h
            have hlt : bval y.mag < bval x.mag := by omega
            have := hbc.1.mpr hlt
            omega
        · constructor
          · constructor
            · intro h
              have : bcompare x.mag y.mag = 0 := by omega
              have := hbc.2.mp this
              omega
            · intro h
              have heq : bval x.mag = bval y.mag := by omega
              have := hbc.2.mpr heq
              omega
          · constructor
            · intro h
              have : bcompare x.mag y.mag < 0 := by omega
              have := hbc'.mp this
              omega
            · intro h
              have hlt : bval x.mag < bval y.mag := by omega
              have := hbc'.mpr hlt
              omega
      · rw [if_pos (by simp [hx, hy])]
        have hxz := hzx hx
        simp only [Bignum.val, if_pos hx, if_neg hy]
        constructor
        · constructor
          · intro _
            have : (0:Int) ≤ bval y.mag := Int.ofNat_nonneg _
            omega
          · intro _; omega
        · constructor
          · constructor
            · intro h; omega
            · intro h
              have : (0:Int) ≤ bval y.mag := Int.ofNat_nonneg _
              omega
          · constructor
            · intro h; omega
            · intro h
              have : (0:Int) ≤ bval y.mag := Int.ofNat_nonneg _
              omega
    · by_cases hy : y.ty = .neg_bignum
      · rw [if_neg (by simp [hx]), if_pos (by simp [hx, hy])]
        have hyz := hzy hy
        simp only [Bignum.val, if_neg hx, if_pos hy]
        constructor
        · constructor
          · intro h; omega
          · intro h
            have : (0:Int) ≤ bval x.mag := Int.ofNat_nonneg _
            omega
        · constructor
          · constructor
            · intro h; omega
            · intro h
              have : (0:Int) ≤ bval x.mag := Int.ofNat_nonneg _
              omega
          · constructor
            · intro _
              have : (0:Int) ≤ bval x.mag := Int.ofNat_nonneg _
              omega
            · intro _; omega
      · rw [if_neg (by simp [hx]), if_neg (by simp [hy]), if_neg (by simp [hx])]
        simp only [Bignum.val, if_neg hx, if_neg hy]
        constructor
        · constructor
          · intro h
            have := hbc'.mp h
            omega
          · intro h
            have : bval x.mag < bval y.mag := by omega
            exact hbc'.mpr this
        · constructor
          · constructor
            · intro h
              have := hbc.2.mp h
              omega
            · intro h
              exact hbc.2.mpr (by omega)
          · constructor
            · intro h
              have := hbc.1.mp h
              omega
            · intro h
              exact hbc.1.mpr (by omega)
  · intro hx hy
    rw [if_pos (by simp [hx, hy])]
    omega
  · rw [if_neg (by simp), if_neg (by simp), if_neg (by simp)]
    exact ⟨hbc', hbc.2, hbc.1⟩

theorem valB_append (l1 l2 : List Bool) :
    valB (l1 ++ l2) = valB l1 * 2 ^ l2.length + valB l2 := by
  induction l1 with
  | nil => simp [valB]
  | cons b bs ih =>
    show valB (b :: (bs ++ l2)) = _
    rw [valB, ih]
    simp only [valB, List.length_append, pow_add]
    ring

theorem valB_bitsLSB_reverse (k b : Nat) :
    valB (bitsLSB k b).reverse = b % 2 ^ k := by
  induction k generalizing b with
  | zero => simp [bitsLSB, valB, Nat.mod_one]
  | succ k ih =>
    rw [bitsLSB, List.reverse_cons, valB_append, ih]
    have hm : 0 < (2:Nat) ^ k := Nat.pos_pow_of_pos _ (by norm_num)
    have h5 : (2 * (b / 2)) % (2 * 2 ^ k) = 2 * (b / 2 % 2 ^ k) :=
      Nat.mul_mod_mul_left 2 (b/2) (2^k)
    have h6 : b / 2 % 2 ^ k < 2 ^ k := Nat.mod_lt _ hm
    have h7 : b % 2 < 2 := Nat.mod_lt _ (by norm_num)
    have hb2 : 2 * (b / 2) + b % 2 = b := by omega
    have h10 := Nat.add_mod (2 * (b / 2)) (b % 2) (2 * 2 ^ k)
    have h11 : b % 2 % (2 * 2 ^ k) = b % 2 := Nat.mod_eq_of_lt (by omega)
    have h12 : (2 * (b / 2 % 2 ^ k) + b % 2) % (2 * 2 ^ k)
        = 2 * (b / 2 % 2 ^ k) + b % 2 := Nat.mod_eq_of_lt (by omega)
    have key : b % 2 ^ (k+1) = 2 * (b / 2 % 2 ^ k) + b % 2 := by
      have hp : (2:Nat) ^ (k+1) = 2 * 2 ^ k := by rw [pow_succ]; ring
      rw [hp]
      conv_lhs => rw [← hb2]
      rw [h10, h5, h11, h12]
    rw [key]
    simp only [valB, List.length_reverse, List.length_nil, List.length_cons, pow_zero,
      pow_one, decide_eq_true_eq]
    rcases Nat.mod_two_eq_zero_or_one b with hb | hb <;> rw [hb] <;> simp <;> omega

theorem valB_bitsMSB (l : List Nat) (hw : bytesWf l) : valB (bitsMSB l) = bval l := by
  induction l with
  | nil => simp [bitsMSB, valB, bval]
  | cons b bs ih =>
    rw [bitsMSB, valB_append, valB_bitsLSB_reverse]
    have hb : b < 256 := hw b (List.mem_cons_self _ _)
    have hlen : (bitsLSB 8 b).reverse.length = 8 := by
      have : ∀ k c, (bitsLSB k c).length = k := by
        intro k
        induction k with
        | zero => intro c; simp [bitsLSB]
        | succ k ihk => intro c; simp [bitsLSB, ihk]
      simp [this]
    rw [hlen, ih (fun x hx => hw x (List.mem_cons_of_mem _ hx))]
    have hb8 : b % 2 ^ 8 = b := Nat.mod_eq_of_lt (by omega)
    have h256 : (2:Nat) ^ 8 = 256 := by norm_num
    rw [hb8, h256]
    show bval bs * 256 + b = b + 256 * bval bs
    omega

theorem quoremBits_spec (x : Nat) :
    ∀ (bs : List Bool) (q r : Nat), r < x →
    (quoremBits x bs (q, r)).1 * x + (quoremBits x bs (q, r)).2
      = (q * x + r) * 2 ^ bs.length + valB bs
    ∧ (quoremBits x bs (q, r)).2 < x := by
  intro bs
  induction bs with
  | nil =>
    intro q r hr
    simp [quoremBits, valB, hr]
  | cons b bs ih =>
    intro q r hr
    rw [quoremBits]
    by_cases hc : x ≤ 2 * r + (if b then 1 else 0)
    · rw [if_pos hc]
      have hr1 : 2 * r + (if b then 1 else 0) - x < x := by
        cases b <;> simp at hc ⊢ <;> omega
      have := ih (2 * q + 1) (2 * r + (if b then 1 else 0) - x) hr1
      refine ⟨?_, this.2⟩
      rw [this.1]
      have hxr : (2 * q + 1) * x + (2 * r + (if b then 1 else 0) - x)
          = 2 * (q * x + r) + (if b then 1 else 0) := by
        have hx2 : (2 * q + 1) * x = 2 * (q * x) + x := by ring
        have hx3 : 2 * (q * x + r) = 2 * (q * x) + 2 * r := by ring
        cases b <;> simp at hc ⊢ <;> omega
      rw [hxr]
      simp only [valB, List.length_cons]
      ring
    · rw [if_neg hc]
      have hr1 : 2 * r + (if b then 1 else 0) < x := by omega
      have := ih (2 * q) (2 * r + (if b then 1 else 0)) hr1
      refine ⟨?_, this.2⟩
      rw [this.1]
      have hxr : (2 * q) * x + (2 * r + (if b then 1 else 0))
          = 2 * (q * x + r) + (if b then 1 else 0) := by
        have hx2 : (2 * q) * x = 2 * (q * x) := by ring
        have hx3 : 2 * (q * x + r) = 2 * (q * x) + 2 * r := by ring
        omega
      rw [hxr]
      simp only [valB, List.length_cons]
      ring

theorem quoremMag_spec (y x : List Nat) (hwy : bytesWf y) (hx : bval x ≠ 0) :
    quoremMag y x = (bval y / bval x, bval y % bval x) := by
  have hxpos : 0 < bval x := Nat.pos_of_ne_zero hx
  have h := quoremBits_spec (bval x) (bitsMSB y) 0 0 hxpos
  rw [valB_bitsMSB y hwy] at h
  simp only [Nat.zero_mul, Nat.zero_add, Nat.mul_zero] at h
  unfold quoremMag
  have h1 : (quoremBits (bval x) (bitsMSB y) (0, 0)).1 * bval x
      + (quoremBits (bval x) (bitsMSB y) (0, 0)).2 = bval y := by
    have := h.1
    omega
  have h2 := h.2
  have hdm := Nat.div_mod_unique (a := bval y) (b := bval x)
    (c := (quoremBits (bval x) (bitsMSB y) (0, 0)).2)
    (d := (quoremBits (bval x) (bitsMSB y) (0, 0)).1) hxpos
  have hkey := hdm.mpr ⟨by rw [Nat.mul_comm (bval x)]; omega, h2⟩
  rw [Prod.ext_iff]
  exact ⟨hkey.1.symm, hkey.2.symm⟩

theorem wordsize_eq_zero (W : Nat) (t : BigId) (ht : t ≠ .based_bignum) :
    wordsize W t = 0 := by
  cases t with
  | bignum => rfl
  | neg_bignum => rfl
  | based_bignum => exact absurd rfl ht

theorem quorem_eval (W : Nat) (y x : Bignum) (ty : BigId) (wantQ wantR : Bool)
    (hbm : bval x.mag ≠ 0) (htx : x.ty ≠ .based_bignum) :
    quorem W y x ty wantQ wantR = .ok
      ((if wantQ then some ⟨ty, toBytes (quoremMag y.mag x.mag).1⟩ else none),
       (if wantR then some ⟨ty, toBytes (quoremMag y.mag x.mag).2⟩ else none)) := by
  unfold quorem
  rw [if_neg hbm]
  simp [wordsize_eq_zero W x.ty htx]

theorem bigdiv_eval (W : Nat) (y x : Bignum)
    (hbm : bval x.mag ≠ 0) (htx : x.ty ≠ .based_bignum) :
    bigdiv W y x = some ⟨product_type y.ty x.ty, toBytes (quoremMag y.mag x.mag).1⟩ := by
  unfold bigdiv
  rw [quorem_eval W y x (product_type y.ty x.ty) true false hbm htx]
  simp

theorem bigmod_eval (W : Nat) (y x : Bignum)
    (hbm : bval x.mag ≠ 0) (htx : x.ty ≠ .based_bignum) :
    bigmod W y x = some ⟨y.ty, toBytes (quoremMag y.mag x.mag).2⟩ := by
  unfold bigmod
  rw [quorem_eval W y x y.ty false true hbm htx]
  simp

/-- C1: for all signed bignums `a` and `b` with `b` nonzero, the quotient
`q` and remainder `r` computed by `bignum::quorem` and exposed via
`operator/` and `operator%` satisfy `q*b + r = a` with `|r| < |b|`, and
the sign of the remainder `a mod b` is the sign of `a` (or `r` is zero). -/
theorem c1_quorem_euclidean (W : Nat) (a b : Bignum)
    (hwa : a.wf) (hta : a.ty ≠ .based_bignum) (htb : b.ty ≠ .based_bignum)
    (hb : b.val ≠ 0) :
    ∃ q r : Bignum, bigdiv W a b = some q ∧ bigmod W a b = some r ∧
      q.val * b.val + r.val = a.val ∧
      r.val.natAbs < b.val.natAbs ∧
      (r.val = 0 ∨ r.val.sign = a.val.sign) := by
  have hbm : bval b.mag ≠ 0 := by
    intro h
    exact hb (by simp [Bignum.val, h])
  have hqm : quoremMag a.mag b.mag = (bval a.mag / bval b.mag, bval a.mag % bval b.mag) :=
    quoremMag_spec a.mag b.mag hwa hbm
  have hBpos : 0 < bval b.mag := Nat.pos_of_ne_zero hbm
  have heuclid := Nat.div_add_mod (bval a.mag) (bval b.mag)
  have hrlt : bval a.mag % bval b.mag < bval b.mag := Nat.mod_lt _ hBpos
  have heuclid : bval a.mag / bval b.mag * bval b.mag + bval a.mag % bval b.mag
      = bval a.mag := Nat.div_add_mod' _ _
  have hA0 : bval a.mag % bval b.mag ≠ 0 → bval a.mag ≠ 0 := by
    intro h h0
    rw [h0] at h
    exact h (Nat.zero_mod _)
  refine ⟨⟨product_type a.ty b.ty, toBytes (quoremMag a.mag b.mag).1⟩,
          ⟨a.ty, toBytes (quoremMag a.mag b.mag).2⟩,
          bigdiv_eval W a b hbm htb, bigmod_eval W a b hbm htb, ?_, ?_, ?_⟩
  · rw [hqm]
    have hi : ((bval a.mag / bval b.mag : Nat) : Int) * (bval b.mag : Nat)
        + ((bval a.mag % bval b.mag : Nat) : Int) = ((bval a.mag : Nat) : Int) := by
      exact_mod_cast heuclid
    cases hta' : a.ty with
    | based_bignum => exact absurd hta' hta
    | bignum =>
      cases htb' : b.ty with
      | based_bignum => exact absurd htb' htb
      | bignum =>
        simp only [Bignum.val, hta', htb', product_type, bval_toBytes]
        simpa using hi
      | neg_bignum =>
        simp only [Bignum.val, hta', htb', product_type, bval_toBytes]
        simp only [reduceCtorEq, if_neg, if_pos]
        simpa [neg_mul_neg] using hi
    | neg_bignum =>
      cases htb' : b.ty with
      | based_bignum => exact absurd htb' htb
      | bignum =>
        simp only [Bignum.val, hta', htb', product_type, bval_toBytes]
        simp
        linarith [hi]
      | neg_bignum =>
        simp only [Bignum.val, hta', htb', product_type, bval_toBytes]
        simp
        linarith [hi]
  · rw [hqm]
    cases hta' : a.ty with
    | based_bignum => exact absurd hta' hta
    | bignum =>
      cases htb' : b.ty with
      | based_bignum => exact absurd htb' htb
      | bignum => simpa [Bignum.val, hta', htb', bval_toBytes] using hrlt
      | neg_bignum => simpa [Bignum.val, hta', htb', bval_toBytes] using hrlt
    | neg_bignum =>
      cases htb' : b.ty with
      | based_bignum => exact absurd htb' htb
      | bignum => simpa [Bignum.val, hta', htb', bval_toBytes] using hrlt
      | neg_bignum => simpa [Bignum.val, hta', htb', bval_toBytes] using hrlt
  · rw [hqm]
    by_cases hR : bval a.mag % bval b.mag = 0
    · left
      simp [Bignum.val, hR, toBytes, bval]
    · right
      have hApos : 0 < bval a.mag := Nat.pos_of_ne_zero (hA0 hR)
      have h1 : ((bval a.mag % bval b.mag : Nat) : Int).sign = 1 :=
        Int.sign_eq_one_of_pos (by exact_mod_cast Nat.pos_of_ne_zero hR)
      have h1' : ((bval a.mag : Int) % (bval b.mag : Int)).sign = 1 := by
        have hc : ((bval a.mag % bval b.mag : Nat) : Int)
            = (bval a.mag : Int) % (bval b.mag : Int) := by push_cast; ring
        rw [← hc]
        exact h1
      have h2 : ((bval a.mag : Nat) : Int).sign = 1 :=
        Int.sign_eq_one_of_pos (by exact_mod_cast hApos)
      cases hta' : a.ty with
      | based_bignum => exact absurd hta' hta
      | bignum => simp [Bignum.val, hta', bval_toBytes, h1, h1', h2]
      | neg_bignum => simp [Bignum.val, hta', bval_toBytes, Int.sign_neg, h1, h1', h2]

theorem c1_witness :
    (Bignum.mk .neg_bignum [7]).wf ∧
    (Bignum.mk .neg_bignum [7]).ty ≠ .based_bignum ∧
    (Bignum.mk .bignum [3]).ty ≠ .based_bignum ∧
    (Bignum.mk .bignum [3]).val ≠ 0 ∧
    (∃ q r : Bignum,
      bigdiv 0 ⟨.neg_bignum, [7]⟩ ⟨.bignum, [3]⟩ = some q ∧
      bigmod 0 ⟨.neg_bignum, [7]⟩ ⟨.bignum, [3]⟩ = some r ∧
      q.val * (Bignum.mk .bignum [3]).val + r.val = (Bignum.mk .neg_bignum [7]).val ∧
      r.val.natAbs < (Bignum.mk .bignum [3]).val.natAbs ∧
      (r.val = 0 ∨ r.val.sign = (Bignum.mk .neg_bignum [7]).val.sign)) :=
  ⟨by decide, by decide, by decide, by decide,
   c1_quorem_euclidean 0 ⟨.neg_bignum, [7]⟩ ⟨.bignum, [3]⟩
     (by decide) (by decide) (by decide) (by decide)⟩

/-- C2: when the divisor `x` is zero, `bignum::quorem(y, x, ...)` sets the
`zero_divide` error and returns false, producing neither a quotient nor a
remainder, and consequently `operator/` and `operator%` return null. -/
theorem c2_quorem_zero_divide (W : Nat) (y x : Bignum) (ty : BigId)
    (wantQ wantR : Bool) (hx : bval x.mag = 0) :
    quorem W y x ty wantQ wantR = .error .zero_divide ∧
    bigdiv W y x = none ∧ bigmod W y x = none := by
  have hq : ∀ (ty' : BigId) (wq wr : Bool),
      quorem W y x ty' wq wr = .error .zero_divide := by
    intro ty' wq wr
    unfold quorem
    rw [if_pos hx]
  refine ⟨hq ty wantQ wantR, ?_, ?_⟩
  · unfold bigdiv
    rw [hq]
  · unfold bigmod
    rw [hq]

theorem c2_witness :
    bval (Bignum.mk .bignum ([] : List Nat)).mag = 0 ∧
    (quorem 0 ⟨.bignum, [5]⟩ ⟨.bignum, []⟩ .bignum true true = .error .zero_divide ∧
     bigdiv 0 ⟨.bignum, [5]⟩ ⟨.bignum, []⟩ = none ∧
     bigmod 0 ⟨.bignum, [5]⟩ ⟨.bignum, []⟩ = none) :=
  ⟨by decide,
   c2_quorem_zero_divide 0 ⟨.bignum, [5]⟩ ⟨.bignum, []⟩ .bignum true true (by decide)⟩

theorem mod_two_pow_succ (b k : Nat) :
    b % 2 ^ (k + 1) = 2 * (b / 2 % 2 ^ k) + b % 2 := by
  have hm : 0 < (2:Nat) ^ k := Nat.pos_pow_of_pos _ (by norm_num)
  have h5 : (2 * (b / 2)) % (2 * 2 ^ k) = 2 * (b / 2 % 2 ^ k) :=
    Nat.mul_mod_mul_left 2 (b/2) (2^k)
  have h6 : b / 2 % 2 ^ k < 2 ^ k := Nat.mod_lt _ hm
  have h7 : b % 2 < 2 := Nat.mod_lt _ (by norm_num)
  have hb2 : 2 * (b / 2) + b % 2 = b := by omega
  have h10 := Nat.add_mod (2 * (b / 2)) (b % 2) (2 * 2 ^ k)
  have h11 : b % 2 % (2 * 2 ^ k) = b % 2 := Nat.mod_eq_of_lt (by omega)
  have h12 : (2 * (b / 2 % 2 ^ k) + b % 2) % (2 * 2 ^ k)
      = 2 * (b / 2 % 2 ^ k) + b % 2 := Nat.mod_eq_of_lt (by omega)
  have hp : (2:Nat) ^ (k+1) = 2 * 2 ^ k := by rw [pow_succ]; ring
  rw [hp]
  conv_lhs => rw [← hb2]
  rw [h10, h5, h11, h12]

theorem mulBits_spec : ∀ (k xd ysh acc M : Nat), 0 < M → acc < M →
    mulBits k xd ysh acc M = (acc + (xd % 2 ^ k) * ysh) % M := by
  intro k
  induction k with
  | zero =>
    intro xd ysh acc M hM hacc
    simp [mulBits, Nat.mod_one, Nat.mod_eq_of_lt hacc]
  | succ k ih =>
    intro xd ysh acc M hM hacc
    rw [mulBits]
    by_cases hxd : xd = 0
    · rw [if_pos hxd, hxd]
      simp [Nat.mod_eq_of_lt hacc]
    · rw [if_neg hxd]
      rcases Nat.mod_two_eq_zero_or_one xd with h2 | h2
      · rw [if_neg (by omega)]
        rw [ih (xd / 2) (ysh * 2) acc M hM hacc]
        rw [mod_two_pow_succ xd k, h2]
        congr 1
        ring
      · rw [if_pos h2]
        have hacc' : (acc + ysh) % M < M := Nat.mod_lt _ hM
        rw [ih (xd / 2) (ysh * 2) ((acc + ysh) % M) M hM hacc']
        rw [Nat.mod_add_mod, mod_two_pow_succ xd k, h2]
        congr 1
        ring

theorem mulBytes_spec : ∀ (l : List Nat) (ysh acc M : Nat), 0 < M → acc < M →
    bytesWf l → mulBytes l ysh acc M = (acc + bval l * ysh) % M := by
  intro l
  induction l with
  | nil =>
    intro ysh acc M hM hacc _
    simp [mulBytes, bval, Nat.mod_eq_of_lt hacc]
  | cons xd xs ih =>
    intro ysh acc M hM hacc hw
    rw [mulBytes]
    have h8 : mulBits 8 xd ysh acc M = (acc + (xd % 2 ^ 8) * ysh) % M :=
      mulBits_spec 8 xd ysh acc M hM hacc
    rw [h8, ih (ysh * 256) ((acc + (xd % 2 ^ 8) * ysh) % M) M hM (Nat.mod_lt _ hM)
      (fun b hb => hw b (List.mem_cons_of_mem _ hb))]
    rw [Nat.mod_add_mod]
    have h256 : (2:Nat) ^ 8 = 256 := by norm_num
    rw [h256]
    have hxd : xd < 256 := hw xd (List.mem_cons_self _ _)
    rw [Nat.mod_eq_of_lt hxd]
    have harith : acc + xd * ysh + bval xs * (ysh * 256)
        = acc + (xd + 256 * bval xs) * ysh := by ring
    rw [harith]
    show _ = (acc + bval (xd :: xs) * ysh) % M
    have hxw : bval (xd :: xs) = xd + 256 * bval xs := rfl
    rw [hxw]

/-- C4 (amended): `bignum::multiply` fails with the `number_too_big` error
exactly when `(xs + ys) * 8` — eight times the sum of the operand byte
sizes, an upper bound on the result bit-width — exceeds the `maxbignum`
setting; when it does not, the product of the two magnitudes is
returned. -/
theorem c4_multiply_number_too_big (m W : Nat) (y x : Bignum) (ty : BigId)
    (hwx : x.wf) (hwy : y.wf) (htx : x.ty ≠ .based_bignum) :
    (multiply m W y x ty = .error .number_too_big ↔
      (x.mag.length + y.mag.length) * 8 > m) ∧
    ((x.mag.length + y.mag.length) * 8 ≤ m →
      multiply m W y x ty = .ok ⟨ty, toBytes (bval y.mag * bval x.mag)⟩) := by
  have hws : wordsize W x.ty = 0 := wordsize_eq_zero W x.ty htx
  constructor
  · unfold multiply
    by_cases hc : (x.mag.length + y.mag.length) * 8 > m
    · rw [if_pos hc]
      simp [hc]
    · rw [if_neg hc]
      simp [hc]
  · intro hle
    unfold multiply
    rw [if_neg (by omega)]
    rw [hws]
    simp only [ne_eq, not_true_eq_false, false_and, if_false, reduceIte]
    have hM : 0 < 256 ^ (x.mag.length + y.mag.length) :=
      Nat.pos_pow_of_pos _ (by norm_num)
    rw [mulBytes_spec x.mag (bval y.mag) 0 _ hM hM hwx]
    have hprod : bval x.mag * bval y.mag < 256 ^ (x.mag.length + y.mag.length) := by
      rw [pow_add]
      exact Nat.mul_lt_mul_of_lt_of_lt (bval_lt x.mag hwx) (bval_lt y.mag hwy)
    rw [Nat.zero_add, Nat.mod_eq_of_lt hprod, Nat.mul_comm]

/-- C4 counterexample to the claim as stated: with `maxbignum = 8`,
multiplying the one-byte bignums 2 and 2 fails with `number_too_big` even
though the result 4 fits in 3 bits, which does not exceed the setting. -/
theorem c4_counterexample :
    multiply 8 0 ⟨.bignum, [2]⟩ ⟨.bignum, [2]⟩ .bignum = .error .number_too_big ∧
    bval [2] * bval [2] = 4 ∧ (4:Nat) < 2 ^ 3 ∧ (3:Nat) ≤ 8 := by
  refine ⟨?_, by decide, by decide, by decide⟩
  unfold multiply
  norm_num

theorem c4_witness :
    (Bignum.mk .bignum [2]).wf ∧ (Bignum.mk .bignum [3]).wf ∧
    (Bignum.mk .bignum [2]).ty ≠ .based_bignum ∧
    ((multiply 100 0 ⟨.bignum, [3]⟩ ⟨.bignum, [2]⟩ .bignum = .error .number_too_big ↔
        ((Bignum.mk .bignum [2]).mag.length + (Bignum.mk .bignum [3]).mag.length) * 8
          > 100) ∧
     (((Bignum.mk .bignum [2]).mag.length + (Bignum.mk .bignum [3]).mag.length) * 8
          ≤ 100 →
       multiply 100 0 ⟨.bignum, [3]⟩ ⟨.bignum, [2]⟩ .bignum
         = .ok ⟨.bignum, toBytes (bval [3] * bval [2])⟩)) :=
  ⟨by decide, by decide, by decide,
   c4_multiply_number_too_big 100 0 ⟨.bignum, [3]⟩ ⟨.bignum, [2]⟩ .bignum
     (by decide) (by decide) (by decide)⟩

/-- C3 (amended): for based bignums with configured word size `W > 0`,
multiplication, division and remainder return the mathematical result
reduced modulo `256 ^ ((W + 7) / 8)` — i.e. modulo `2 ^ (8 * ⌈W / 8⌉)`,
which equals `2 ^ W` only when `W` is a multiple of 8, because the
truncation in bignum.cc caps the result at `wbytes = (W + 7) / 8` bytes,
not at `W` bits. -/
theorem c3_based_words (m W : Nat) (y x : Bignum) (ty : BigId)
    (hwx : x.wf) (hwy : y.wf) (htx : x.ty = .based_bignum)
    (hW : W ≠ 0)
    (hm : (x.mag.length + y.mag.length) * 8 ≤ m)
    (hx0 : bval x.mag ≠ 0) :
    multiply m W y x ty
      = .ok ⟨ty, toBytes (bval y.mag * bval x.mag % 256 ^ ((W + 7) / 8))⟩ ∧
    quorem W y x ty true true
      = .ok (some ⟨ty, toBytes (bval y.mag / bval x.mag % 256 ^ ((W + 7) / 8))⟩,
             some ⟨ty, toBytes (bval y.mag % bval x.mag % 256 ^ ((W + 7) / 8))⟩) := by
  have hws : wordsize W x.ty = W := by rw [htx]; rfl
  constructor
  · unfold multiply
    rw [if_neg (by omega), hws]
    by_cases hcap : x.mag.length + y.mag.length > (W + 7) / 8
    · rw [if_pos (by exact ⟨hW, hcap⟩)]
      have hM : 0 < 256 ^ ((W + 7) / 8) := Nat.pos_pow_of_pos _ (by norm_num)
      show Except.ok (Bignum.mk ty
        (toBytes (mulBytes x.mag (bval y.mag) 0 (256 ^ ((W + 7) / 8))))) = _
      rw [mulBytes_spec x.mag (bval y.mag) 0 _ hM hM hwx]
      rw [Nat.zero_add, Nat.mul_comm]
    · rw [if_neg (by omega)]
      have hM : 0 < 256 ^ (x.mag.length + y.mag.length) :=
        Nat.pos_pow_of_pos _ (by norm_num)
      show Except.ok (Bignum.mk ty
        (toBytes (mulBytes x.mag (bval y.mag) 0
          (256 ^ (x.mag.length + y.mag.length))))) = _
      rw [mulBytes_spec x.mag (bval y.mag) 0 _ hM hM hwx]
      have hprod : bval x.mag * bval y.mag < 256 ^ (x.mag.length + y.mag.length) := by
        rw [pow_add]
        exact Nat.mul_lt_mul_of_lt_of_lt (bval_lt x.mag hwx) (bval_lt y.mag hwy)
      have hprod' : bval x.mag * bval y.mag < 256 ^ ((W + 7) / 8) :=
        lt_of_lt_of_le hprod (Nat.pow_le_pow_right (by norm_num) (by omega))
      rw [Nat.zero_add, Nat.mod_eq_of_lt hprod, Nat.mul_comm,
        Nat.mod_eq_of_lt (Nat.mul_comm _ _ ▸ hprod')]
  · unfold quorem
    rw [if_neg hx0]
    rw [quoremMag_spec y.mag x.mag hwy hx0]
    simp [hws, hW]

/-- C3 counterexample to the claim as stated: with word size `W = 4`,
multiplying the based bignums 4 and 4 stores 16, but the mathematical
result reduced modulo `2 ^ 4` is 0 — the code truncates at whole bytes
(`(W + 7) / 8 = 1` byte, i.e. modulo 256), not at `W` bits. -/
theorem c3_counterexample :
    multiply 100 4 ⟨.based_bignum, [4]⟩ ⟨.based_bignum, [4]⟩ .based_bignum
      = .ok ⟨.based_bignum, [16]⟩ ∧
    bval [4] * bval [4] % 2 ^ 4 = 0 ∧ bval [16] ≠ 0 := by
  refine ⟨?_, by decide, by decide⟩
  unfold multiply
  norm_num [wordsize]
  decide

theorem c3_witness :
    (Bignum.mk .based_bignum [5]).wf ∧ (Bignum.mk .based_bignum [3]).wf ∧
    (Bignum.mk .based_bignum [5]).ty = .based_bignum ∧ (4:Nat) ≠ 0 ∧
    ((Bignum.mk .based_bignum [5]).mag.length
      + (Bignum.mk .based_bignum [3]).mag.length) * 8 ≤ 100 ∧
    bval (Bignum.mk .based_bignum [5]).mag ≠ 0 ∧
    (multiply 100 4 ⟨.based_bignum, [3]⟩ ⟨.based_bignum, [5]⟩ .based_bignum
      = .ok ⟨.based_bignum, toBytes (bval [3] * bval [5] % 256 ^ ((4 + 7) / 8))⟩ ∧
     quorem 4 ⟨.based_bignum, [3]⟩ ⟨.based_bignum, [5]⟩ .based_bignum true true
      = .ok (some ⟨.based_bignum, toBytes (bval [3] / bval [5] % 256 ^ ((4 + 7) / 8))⟩,
             some ⟨.based_bignum, toBytes (bval [3] % bval [5] % 256 ^ ((4 + 7) / 8))⟩)) :=
  ⟨by decide, by decide, by decide, by decide, by decide, by decide,
   c3_based_words 100 4 ⟨.based_bignum, [3]⟩ ⟨.based_bignum, [5]⟩ .based_bignum
     (by decide) (by decide) (by decide) (by decide) (by decide) (by decide)⟩

/-- C5: the exponent 256 (bytes `[0x00, 0x01]`) exhibits the bug in
`bignum::pow`: the inner loop abandons the low exponent byte as soon as
its remaining bits are zero, so the pending squarings of `y` are skipped
even though a further exponent byte follows; `pow(2, 256)` yields 2, not
`2 ^ 256` as the function's own description (`Compute y^abs(x)`) states. -/
theorem c5_pow_bug :
    bigpow ⟨.bignum, [2]⟩ ⟨.bignum, [0, 1]⟩ = 2 ∧
    bval [0, 1] = 256 ∧
    (2:Nat) ^ 256 ≠ 2 := by
  refine ⟨by decide, by decide, ?_⟩
  intro h
  have h1 : (2:Nat) ^ 256 > 2 ^ 2 := Nat.pow_lt_pow_right (by norm_num) (by norm_num)
  omega

theorem lor_shift8 (b m : Nat) (hb : b < 256) : b ||| (m <<< 8) = b + 256 * m := by
  apply Nat.eq_of_testBit_eq
  intro j
  rw [Nat.testBit_lor, Nat.shiftLeft_eq]
  have hrepr : b + 256 * m = 2 ^ 8 * m + b := by ring
  rw [hrepr, Nat.testBit_mul_pow_two_add m (show b < 2 ^ 8 by omega) j]
  rw [show m * 2 ^ 8 = 2 ^ 8 * m by ring, Nat.testBit_mul_pow_two]
  by_cases hj : j < 8
  · have : ¬ (j ≥ 8) := by omega
    simp [hj, this]
  · have hge : j ≥ 8 := by omega
    have h2j : (256:Nat) ≤ 2 ^ j := by
      calc (256:Nat) = 2 ^ 8 := by norm_num
      _ ≤ 2 ^ j := Nat.pow_le_pow_right (by norm_num) hge
    have hbf : b.testBit j = false := Nat.testBit_lt_two_pow (by omega)
    simp [hj, hge, hbf]

theorem uvalue_eq_bval (l : List Nat) (hw : bytesWf l) : uvalue l = bval l := by
  induction l with
  | nil => rfl
  | cons b bs ih =>
    rw [uvalue, lor_shift8 b (uvalue bs) (hw b (List.mem_cons_self _ _)),
      ih (fun x hx => hw x (List.mem_cons_of_mem _ hx))]
    rfl

/-- C6: a bignum whose stored magnitude is at most `sizeof(ularge)` = 8
bytes is converted by `bignum::as_integer` to a small integer of the same
sign and numeric value; a longer magnitude yields null. -/
theorem c6_as_integer (b : Bignum) (hw : b.wf) :
    (b.mag.length ≤ 8 →
      ∃ i : Integer, as_integer b = some i ∧ i.val = b.val ∧
        (i.ty = .neg_integer ↔ b.ty = .neg_bignum)) ∧
    (b.mag.length > 8 → as_integer b = none) := by
  constructor
  · intro hle
    refine ⟨⟨if b.ty = .neg_bignum then .neg_integer else .integer, uvalue b.mag⟩,
      ?_, ?_, ?_⟩
    · unfold as_integer
      rw [if_neg (by omega)]
    · rw [uvalue_eq_bval b.mag hw]
      by_cases ht : b.ty = .neg_bignum
      · simp [Integer.val, Bignum.val, ht]
      · simp [Integer.val, Bignum.val, ht]
    · by_cases ht : b.ty = .neg_bignum
      · simp [ht]
      · simp [ht]
  · intro hgt
    unfold as_integer
    rw [if_pos hgt]

theorem c6_witness :
    (Bignum.mk .neg_bignum [5, 1]).wf ∧
    (((Bignum.mk .neg_bignum [5, 1]).mag.length ≤ 8 →
      ∃ i : Integer, as_integer ⟨.neg_bignum, [5, 1]⟩ = some i ∧
        i.val = (Bignum.mk .neg_bignum [5, 1]).val ∧
        (i.ty = .neg_integer ↔ (Bignum.mk .neg_bignum [5, 1]).ty = .neg_bignum)) ∧
     ((Bignum.mk .neg_bignum [5, 1]).mag.length > 8 →
      as_integer ⟨.neg_bignum, [5, 1]⟩ = none)) :=
  ⟨by decide, c6_as_integer ⟨.neg_bignum, [5, 1]⟩ (by decide)⟩

/-- C9 counterexample to the claim as stated: the negative zero
`neg_bignum` with empty magnitude (producible by `operator-` on a zero
bignum, src/src/bignum.cc lines 361-378) is normalized, yet
`compare(-0, +0, false)` returns -1 although both signed values are 0,
contradicting "zero iff x = y". -/
theorem c9_counterexample :
    (Bignum.mk .neg_bignum []).wf ∧ (Bignum.mk .bignum []).wf ∧
    normalizedB (Bignum.mk .neg_bignum []).mag ∧
    normalizedB (Bignum.mk .bignum []).mag ∧
    compare ⟨.neg_bignum, []⟩ ⟨.bignum, []⟩ false = -1 ∧
    (Bignum.mk .neg_bignum []).val = (Bignum.mk .bignum []).val := by
  refine ⟨by decide, by decide, by decide, by decide, ?_, by decide⟩
  decide

theorem c9_witness :
    ((Bignum.mk .neg_bignum [2]).wf ∧ (Bignum.mk .bignum [5]).wf ∧
     normalizedB (Bignum.mk .neg_bignum [2]).mag ∧
     normalizedB (Bignum.mk .bignum [5]).mag ∧
     ((Bignum.mk .neg_bignum [2]).ty = .neg_bignum →
       bval (Bignum.mk .neg_bignum [2]).mag ≠ 0) ∧
     ((Bignum.mk .bignum [5]).ty = .neg_bignum →
       bval (Bignum.mk .bignum [5]).mag ≠ 0)) ∧
    (((compare ⟨.neg_bignum, [2]⟩ ⟨.bignum, [5]⟩ false < 0 ↔
        (Bignum.mk .neg_bignum [2]).val < (Bignum.mk .bignum [5]).val) ∧
      (compare ⟨.neg_bignum, [2]⟩ ⟨.bignum, [5]⟩ false = 0 ↔
        (Bignum.mk .neg_bignum [2]).val = (Bignum.mk .bignum [5]).val) ∧
      (0 < compare ⟨.neg_bignum, [2]⟩ ⟨.bignum, [5]⟩ false ↔
        (Bignum.mk .bignum [5]).val < (Bignum.mk .neg_bignum [2]).val)) ∧
     ((Bignum.mk .neg_bignum [2]).ty = .neg_bignum →
      (Bignum.mk .bignum [5]).ty ≠ .neg_bignum →
      compare ⟨.neg_bignum, [2]⟩ ⟨.bignum, [5]⟩ false < 0) ∧
     ((compare ⟨.neg_bignum, [2]⟩ ⟨.bignum, [5]⟩ true < 0 ↔
        bval (Bignum.mk .neg_bignum [2]).mag < bval (Bignum.mk .bignum [5]).mag) ∧
      (compare ⟨.neg_bignum, [2]⟩ ⟨.bignum, [5]⟩ true = 0 ↔
        bval (Bignum.mk .neg_bignum [2]).mag = bval (Bignum.mk .bignum [5]).mag) ∧
      (0 < compare ⟨.neg_bignum, [2]⟩ ⟨.bignum, [5]⟩ true ↔
        bval (Bignum.mk .bignum [5]).mag < bval (Bignum.mk .neg_bignum [2]).mag))) :=
  ⟨⟨by decide, by decide, by decide, by decide, by decide, by decide⟩,
   compare_signed_order ⟨.neg_bignum, [2]⟩ ⟨.bignum, [5]⟩
     (by decide) (by decide) (by decide) (by decide) (by decide) (by decide)⟩

theorem renderLoop_eq_withSeps (spacing space : Nat) :
    ∀ n sep, renderLoop spacing space n sep
      = withSeps spacing space ((decDigitsLSB n).map (fun d => d + 48)) sep := by
  intro n
  induction n using Nat.strong_induction_on with
  | _ n ih =>
    intro sep
    by_cases h : n / 10 = 0
    · rw [renderLoop, dif_pos h]
      by_cases hn : n = 0
      · subst hn
        simp [decDigitsLSB, withSeps]
      · have hd : decDigitsLSB n = [n % 10] := by
          unfold decDigitsLSB
          rw [if_neg hn, Nat.digits_def' (by norm_num : (1:Nat) < 10)
            (Nat.pos_of_ne_zero hn), h, Nat.digits_zero]
        rw [hd]
        rfl
    · have hdiv : n / 10 < n := Nat.div_lt_self (by omega) (by norm_num)
      have hn : n ≠ 0 := by omega
      have hd : decDigitsLSB n = n % 10 :: Nat.digits 10 (n / 10) := by
        unfold decDigitsLSB
        rw [if_neg hn, Nat.digits_def' (by norm_num : (1:Nat) < 10)
          (Nat.pos_of_ne_zero hn)]
      have hd2 : decDigitsLSB (n / 10) = Nat.digits 10 (n / 10) := by
        unfold decDigitsLSB
        rw [if_neg h]
      have hne : Nat.digits 10 (n / 10) ≠ [] := Nat.digits_ne_nil_iff_ne_zero.mpr h
      obtain ⟨d', tl, htl⟩ : ∃ d' tl, Nat.digits 10 (n / 10) = d' :: tl := by
        cases hcase : Nat.digits 10 (n / 10) with
        | nil => exact absurd hcase hne
        | cons a b => exact ⟨a, b, rfl⟩
      rw [renderLoop, dif_neg h, hd, htl]
      simp only [List.map_cons]
      by_cases hsep : sep + 1 = spacing
      · rw [if_pos hsep, withSeps, if_pos hsep, ih (n / 10) hdiv 0, hd2, htl]
        simp only [List.map_cons]
      · rw [if_neg hsep, withSeps, if_neg hsep, ih (n / 10) hdiv (sep + 1), hd2, htl]
        simp only [List.map_cons]

theorem withSeps_zero_spacing (space : Nat) :
    ∀ (l : List Nat) (sep : Nat), withSeps 0 space l sep = l := by
  intro l
  induction l with
  | nil => intro sep; rfl
  | cons d ds ih =>
    intro sep
    cases ds with
    | nil => rfl
    | cons d' tl =>
      rw [withSeps, if_neg (by omega)]
      rw [ih (sep + 1)]

/-- C7: rendering a non-negative bignum in base 10 emits the standard
decimal digit string most significant digit first — the digits are
produced least significant first by repeated division by the base and the
substring is then reversed (per code point, which agrees with the
in-place byte reversal whenever every emitted unit is one byte) — with
the grouping separator inserted every `spacing_mantissa` digits (counted
from the least significant digit, never at the outer ends); with no
grouping the result is exactly the standard decimal string. -/
theorem c7_render_decimal (n spacing space : Nat) :
    renderNum n spacing space
      = (withSeps spacing space ((decDigitsLSB n).map (fun d => d + 48)) 0).reverse ∧
    renderNum n 0 space = decString n := by
  constructor
  · unfold renderNum
    rw [renderLoop_eq_withSeps]
  · unfold renderNum decString
    rw [renderLoop_eq_withSeps, withSeps_zero_spacing]

set_option maxRecDepth 8192 in
/-- C8: in the opcode table, every `FLAGS(range, first, last)` declaration
brackets a contiguous run of the enumeration: the category predicates
defined as inclusive tag comparisons hold exactly for the kinds belonging
to the category — in particular every integer kind's tag lies between
`hex_integer` and `neg_integer` and no non-integer kind's tag lies inside
that range, and likewise for the based, bignum, fraction, decimal, real
and complex categories; and every declared first/last pair is ordered in
the table (so each range is a well-formed, non-empty run), including the
`is_type`, `is_command`, `is_symbolic`, `is_algebraic` and `is_immediate`
pairs whose membership is defined by the table itself. -/
theorem c8_flags_ranges :
    (∀ k : ID, is_integer k ↔ k ∈ integerKinds) ∧
    (∀ k : ID, is_based k ↔ k ∈ basedKinds) ∧
    (∀ k : ID, is_bignum k ↔ k ∈ bignumKinds) ∧
    (∀ k : ID, is_fraction k ↔ k ∈ fractionKinds) ∧
    (∀ k : ID, is_decimal k ↔ k ∈ decimalKinds) ∧
    (∀ k : ID, is_real k ↔ k ∈ realKinds) ∧
    (∀ k : ID, is_complex k ↔ k ∈ complexKinds) ∧
    (ID.toCtorIdx .directory ≤ ID.toCtorIdx .decimal128 ∧
     ID.toCtorIdx .Drop ≤ ID.toCtorIdx .Unimplemented ∧
     ID.toCtorIdx .«local» ≤ ID.toCtorIdx .equation ∧
     ID.toCtorIdx .pi ≤ ID.toCtorIdx .ImaginaryUnit ∧
     ID.toCtorIdx .add ≤ ID.toCtorIdx .ToFraction ∧
     ID.toCtorIdx .MainMenu ≤ ID.toCtorIdx .SelfInsert) := by
  refine ⟨by decide, by decide, by decide, by decide, by decide, by decide,
    by decide, by decide⟩

theorem putTabsWith_inv (put1 : RState → Bool × RState)
    (h : ∀ s, PutInv s (put1 s)) :
    ∀ (n : Nat) (st : RState),
      (putTabsWith put1 n st).2.length = st.length ∧
      st.written ≤ (putTabsWith put1 n st).2.written ∧
      (∀ i, i < st.written ∨ (putTabsWith put1 n st).2.written ≤ i →
        (putTabsWith put1 n st).2.buf i = st.buf i) ∧
      (st.length ≤ st.written → (putTabsWith put1 n st).2.written = st.written ∧
        (putTabsWith put1 n st).2.buf = st.buf) ∧
      (st.written ≤ st.length → st.nl = false →
        (putTabsWith put1 n st).2.written ≤ st.length) ∧
      ((putTabsWith put1 n st).2.nl = true → st.nl = true) := by
  intro n
  induction n with
  | zero =>
    intro st
    refine ⟨rfl, le_refl _, fun i _ => rfl, fun _ => ⟨rfl, rfl⟩, fun h1 _ => h1, fun h1 => h1⟩
  | succ n ih =>
    intro st
    rcases hp : put1 st with ⟨ok, st'⟩
    have hinv := h st
    rw [hp] at hinv
    obtain ⟨hL, hMon, hFrame, hFull, hB1, hB2, hNl⟩ := hinv
    cases ok with
    | false =>
      have hstep : putTabsWith put1 (n+1) st = (false, st') := by
        rw [putTabsWith, hp]
      rw [hstep]
      exact ⟨hL, hMon, hFrame, fun hf => ⟨(hFull hf).2.1, (hFull hf).2.2⟩, hB2, hNl⟩
    | true =>
      have hstep : putTabsWith put1 (n+1) st = putTabsWith put1 n st' := by
        rw [putTabsWith, hp]
      rw [hstep]
      obtain ⟨iL, iMon, iFrame, iFull, iB2, iNl⟩ := ih st'
      refine ⟨by rw [iL, hL], le_trans hMon iMon, ?_, ?_, ?_, ?_⟩
      · intro i hi
        rcases hi with hi | hi
        · rw [iFrame i (Or.inl (lt_of_lt_of_le hi hMon)), hFrame i (Or.inl hi)]
        · rw [iFrame i (Or.inr hi), hFrame i (Or.inr (le_trans iMon hi))]
      · intro hf
        exact absurd (hFull hf).1 (by simp)
      · intro hw hnl
        have h2 : st'.written ≤ st.length := hB2 hw hnl
        have h3 : st'.nl = false := by
          cases hst' : st'.nl with
          | false => rfl
          | true => rw [hNl hst'] at hnl; exact absurd hnl (by simp)
        have := iB2 (by rw [hL]; exact h2) h3
        rw [hL] at this
        exact this
      · intro h4
        exact hNl (iNl h4)

theorem finishChar_spec (st5 : RState) (c2 : Nat) :
    (finishChar st5 c2).1 = true ∧
    (finishChar st5 c2).2.written = st5.written ∧
    (finishChar st5 c2).2.buf = st5.buf ∧
    (finishChar st5 c2).2.length = st5.length ∧
    (finishChar st5 c2).2.nl = st5.nl := by
  unfold finishChar
  by_cases h : c2 = 34 <;> simp [h]

theorem tabsStep_spec (rec1 : RState → Nat → Bool × RState)
    (hrec : ∀ s c, PutInv s (rec1 s c)) (st4 : RState) :
    (tabsStep rec1 st4).2.length = st4.length ∧
    st4.written ≤ (tabsStep rec1 st4).2.written ∧
    (∀ i, i < st4.written ∨ (tabsStep rec1 st4).2.written ≤ i →
      (tabsStep rec1 st4).2.buf i = st4.buf i) ∧
    (st4.written ≤ st4.length → (tabsStep rec1 st4).2.written ≤ st4.length) ∧
    ((tabsStep rec1 st4).2.nl = true → False) := by
  unfold tabsStep
  by_cases h : ¬ st4.txt
  · rw [if_pos h]
    obtain ⟨tL, tM, tF, tFull, tB, tNl⟩ :=
      putTabsWith_inv (fun s => rec1 s 9) (fun s => hrec s 9) st4.tabs
        { st4 with nl := false }
    refine ⟨tL, tM, tF, ?_, ?_⟩
    · intro hw
      exact tB hw rfl
    · intro hnl
      exact absurd (tNl hnl) (by simp)
  · rw [if_neg h]
    exact ⟨rfl, le_refl _, fun i _ => rfl, fun hw => hw, fun hnl => by simp at hnl⟩

theorem flushStep_spec (rec1 : RState → Nat → Bool × RState)
    (hrec : ∀ s c, PutInv s (rec1 s c)) (st2 : RState) (c2 : Nat)
    (hw : st2.written < st2.length) :
    (flushStep rec1 st2 c2).2.length = st2.length ∧
    st2.written ≤ (flushStep rec1 st2 c2).2.written ∧
    (∀ i, i < st2.written ∨ (flushStep rec1 st2 c2).2.written ≤ i →
      (flushStep rec1 st2 c2).2.buf i = st2.buf i) ∧
    (flushStep rec1 st2 c2).2.written ≤ st2.length ∧
    ((flushStep rec1 st2 c2).2.nl = true → st2.nl = true) ∧
    (st2.nl = false → flushStep rec1 st2 c2 = (true, st2)) := by
  unfold flushStep
  by_cases h : ¬ isSpaceC c2 ∧ st2.nl
  · rw [if_pos h]
    obtain ⟨iL, iM, iF, iFull, iB1, iB2, iNl⟩ := hrec { st2 with nl := false } 10
    refine ⟨iL, iM, iF, ?_, ?_, ?_⟩
    · exact iB2 (le_of_lt hw) rfl
    · intro hnl
      exact absurd (iNl hnl) (by simp)
    · intro hnl
      rw [hnl] at h
      exact absurd h.2 (by simp)
  · rw [if_neg h]
    exact ⟨rfl, le_refl _, fun i _ => rfl, le_of_lt hw, fun hnl => hnl, fun _ => rfl⟩

theorem putTail_spec (rec1 : RState → Nat → Bool × RState)
    (hrec : ∀ s c, PutInv s (rec1 s c)) (st3 : RState) (c2 : Nat)
    (hw3 : st3.written ≤ st3.length)
    (h10 : c2 = 10 → st3.written < st3.length) :
    (putTail rec1 st3 c2).2.length = st3.length ∧
    st3.written ≤ (putTail rec1 st3 c2).2.written ∧
    (∀ i, i < st3.written ∨ (putTail rec1 st3 c2).2.written ≤ i →
      (putTail rec1 st3 c2).2.buf i = st3.buf i) ∧
    (putTail rec1 st3 c2).2.written ≤ st3.length + 1 ∧
    (st3.written < st3.length → (putTail rec1 st3 c2).2.written ≤ st3.length) ∧
    ((putTail rec1 st3 c2).2.nl = true → st3.nl = true) := by
  have hwc : (writeChar st3 c2).written = st3.written + 1 := rfl
  have hwl : (writeChar st3 c2).length = st3.length := rfl
  have hwb : ∀ i, i ≠ st3.written → (writeChar st3 c2).buf i = st3.buf i := by
    intro i hi
    show (if i = st3.written then c2 else st3.buf i) = st3.buf i
    rw [if_neg hi]
  by_cases hc : c2 = 10
  · obtain ⟨tL, tM, tF, tB, tNl⟩ := tabsStep_spec rec1 hrec (writeChar st3 c2)
    rcases ht : tabsStep rec1 (writeChar st3 c2) with ⟨ok5, st5⟩
    rw [ht] at tL tM tF tB tNl
    have hwlt : st3.written < st3.length := h10 hc
    have hb5 : st5.written ≤ st3.length := by
      have := tB (by rw [hwc, hwl]; omega)
      rw [hwl] at this
      exact this
    have hm5 : st3.written + 1 ≤ st5.written := by rw [← hwc]; exact tM
    have hfr5 : ∀ i, i < st3.written ∨ st5.written ≤ i → st5.buf i = st3.buf i := by
      intro i hi
      have h1 : i < (writeChar st3 c2).written ∨ st5.written ≤ i := by
        rcases hi with hi | hi
        · exact Or.inl (by rw [hwc]; omega)
        · exact Or.inr hi
      rw [tF i h1]
      apply hwb
      rcases hi with hi | hi
      · omega
      · omega
    cases ok5 with
    | false =>
      have hstep : putTail rec1 st3 c2 = (false, st5) := by
        rw [putTail, if_pos hc, ht]
      rw [hstep]
      refine ⟨by rw [← hwl, ← tL], by omega, hfr5, by omega, fun _ => hb5, ?_⟩
      intro hnl
      exact absurd hnl (by intro h2; exact tNl h2)
    | true =>
      have hstep : putTail rec1 st3 c2 = finishChar { st5 with cr := true } c2 := by
        rw [putTail, if_pos hc, ht]
      obtain ⟨fOk, fW, fB, fL, fNl⟩ := finishChar_spec { st5 with cr := true } c2
      rw [hstep]
      have hcr : ({ st5 with cr := true } : RState).written = st5.written := rfl
      have hcrb : ({ st5 with cr := true } : RState).buf = st5.buf := rfl
      have hcrl : ({ st5 with cr := true } : RState).length = st5.length := rfl
      have hcrn : ({ st5 with cr := true } : RState).nl = st5.nl := rfl
      refine ⟨by rw [fL, hcrl, ← hwl, ← tL], by rw [fW, hcr]; omega, ?_, ?_, ?_, ?_⟩
      · intro i hi
        rw [fB, hcrb]
        apply hfr5
        rcases hi with hi | hi
        · exact Or.inl hi
        · rw [fW, hcr] at hi
          exact Or.inr hi
      · rw [fW, hcr]
        omega
      · intro _
        rw [fW, hcr]
        exact hb5
      · intro hnl
        rw [fNl, hcrn] at hnl
        exact absurd hnl (by intro h2; exact tNl h2)
  · have hstep : putTail rec1 st3 c2
        = finishChar (if ¬ isSpaceC c2 then { writeChar st3 c2 with cr := false }
                      else writeChar st3 c2) c2 := by
      rw [putTail, if_neg hc]
    rw [hstep]
    by_cases hsp : ¬ isSpaceC c2
    · rw [if_pos hsp]
      obtain ⟨fOk, fW, fB, fL, fNl⟩ :=
        finishChar_spec { writeChar st3 c2 with cr := false } c2
      have hcw : ({ writeChar st3 c2 with cr := false } : RState).written
          = st3.written + 1 := rfl
      have hcl : ({ writeChar st3 c2 with cr := false } : RState).length
          = st3.length := rfl
      have hcb : ∀ i, i ≠ st3.written →
          ({ writeChar st3 c2 with cr := false } : RState).buf i = st3.buf i := by
        intro i hi
        show (if i = st3.written then c2 else st3.buf i) = st3.buf i
        rw [if_neg hi]
      have hcn : ({ writeChar st3 c2 with cr := false } : RState).nl = st3.nl := rfl
      refine ⟨by rw [fL, hcl], by rw [fW, hcw]; omega, ?_, ?_, ?_, ?_⟩
      · intro i hi
        rw [fB]
        apply hcb
        rw [fW, hcw] at hi
        omega
      · rw [fW, hcw]
        omega
      · intro hlt
        rw [fW, hcw]
        omega
      · intro hnl
        rw [fNl, hcn] at hnl
        exact hnl
    · rw [if_neg hsp]
      obtain ⟨fOk, fW, fB, fL, fNl⟩ := finishChar_spec (writeChar st3 c2) c2
      have hwn : (writeChar st3 c2).nl = st3.nl := rfl
      refine ⟨by rw [fL, hwl], by rw [fW, hwc]; omega, ?_, ?_, ?_, ?_⟩
      · intro i hi
        rw [fB]
        apply hwb
        rw [fW, hwc] at hi
        omega
      · rw [fW, hwc]
        omega
      · intro hlt
        rw [fW, hwc]
        omega
      · intro hnl
        rw [fNl, hwn] at hnl
        exact hnl

theorem putAfterFlat_spec (rec1 : RState → Nat → Bool × RState)
    (hrec : ∀ s c, PutInv s (rec1 s c)) (st2 : RState) (c2 : Nat)
    (hw : st2.written < st2.length) :
    (putAfterFlat rec1 st2 c2).2.length = st2.length ∧
    st2.written ≤ (putAfterFlat rec1 st2 c2).2.written ∧
    (∀ i, i < st2.written ∨ (putAfterFlat rec1 st2 c2).2.written ≤ i →
      (putAfterFlat rec1 st2 c2).2.buf i = st2.buf i) ∧
    (putAfterFlat rec1 st2 c2).2.written ≤ st2.length + 1 ∧
    (st2.nl = false → (putAfterFlat rec1 st2 c2).2.written ≤ st2.length) ∧
    ((putAfterFlat rec1 st2 c2).2.nl = true → st2.nl = true) := by
  unfold putAfterFlat
  by_cases hcr : c2 = 32 ∧ (st2.cr ∨ st2.nl)
  · rw [if_pos hcr]
    exact ⟨rfl, le_refl _, fun i _ => rfl, le_trans (le_of_lt hw) (Nat.le_succ _),
      fun _ => le_of_lt hw, fun hnl => hnl⟩
  · rw [if_neg hcr]
    obtain ⟨fL, fM, fF, fB, fNl, fId⟩ := flushStep_spec rec1 hrec st2 c2 hw
    rcases hfl : flushStep rec1 st2 c2 with ⟨ok3, st3⟩
    rw [hfl] at fL fM fF fB fNl fId
    cases ok3 with
    | false =>
      have hstep : (match (false, st3) with
          | (false, s) => (false, s)
          | (true, s) => putTail rec1 s c2) = ((false, st3) : Bool × RState) := rfl
      rw [hstep]
      exact ⟨fL, fM, fF, by omega, fun _ => fB, fNl⟩
    | true =>
      have hstep : (match (true, st3) with
          | (false, s) => (false, s)
          | (true, s) => putTail rec1 s c2) = putTail rec1 st3 c2 := rfl
      rw [hstep]
      have h10 : c2 = 10 → st3.written < st3.length := by
        intro hc
        have hsp : isSpaceC c2 = true := by rw [hc]; rfl
        have : flushStep rec1 st2 c2 = (true, st2) := by
          unfold flushStep
          rw [if_neg (by simp [hsp])]
        rw [hfl] at this
        injection this with h1 h2
        rw [h2]
        exact hw
      obtain ⟨tL, tM, tF, tB1, tB2, tNl⟩ :=
        putTail_spec rec1 hrec st3 c2 (by rw [fL]; exact fB) h10
      refine ⟨by rw [tL, fL], le_trans fM tM, ?_, ?_, ?_, ?_⟩
      · intro i hi
        rcases hi with hi | hi
        · rw [tF i (Or.inl (lt_of_lt_of_le hi fM)), fF i (Or.inl hi)]
        · rw [tF i (Or.inr hi), fF i (Or.inr (le_trans tM hi))]
      · rw [fL] at tB1
        omega
      · intro hnl
        have hid := fId hnl
        injection hid with h1 h2
        have hlt : st3.written < st3.length := by rw [h2]; exact hw
        rw [← fL]
        exact tB2 hlt
      · intro hnl
        exact fNl (tNl hnl)

theorem signStep_spec (rec1 : RState → Nat → Bool × RState)
    (hrec : ∀ s c, PutInv s (rec1 s c)) (st : RState) (c : Nat) :
    (signStep rec1 st c).length = st.length ∧
    st.written ≤ (signStep rec1 st c).written ∧
    (∀ i, i < st.written ∨ (signStep rec1 st c).written ≤ i →
      (signStep rec1 st c).buf i = st.buf i) ∧
    (st.length ≤ st.written → (signStep rec1 st c).written = st.written ∧
      (signStep rec1 st c).buf = st.buf) ∧
    (st.written ≤ st.length → (signStep rec1 st c).written ≤ st.length + 1) ∧
    (st.written ≤ st.length → st.nl = false → (signStep rec1 st c).written ≤ st.length) ∧
    ((signStep rec1 st c).nl = true → st.nl = true) := by
  unfold signStep
  by_cases hs : st.sign
  · rw [if_pos hs]
    by_cases hpm : c ≠ 45 ∧ c ≠ 43
    · rw [if_pos hpm]
      obtain ⟨iL, iM, iF, iFull, iB1, iB2, iNl⟩ := hrec { st with sign := false } 43
      exact ⟨iL, iM, iF, fun hf => ⟨(iFull hf).2.1, (iFull hf).2.2⟩, iB1, iB2, iNl⟩
    · rw [if_neg hpm]
      exact ⟨rfl, le_refl _, fun i _ => rfl, fun _ => ⟨rfl, rfl⟩,
        fun h => le_trans h (Nat.le_succ _), fun h _ => h, fun h => h⟩
  · rw [if_neg hs]
    exact ⟨rfl, le_refl _, fun i _ => rfl, fun _ => ⟨rfl, rfl⟩,
      fun h => le_trans h (Nat.le_succ _), fun h _ => h, fun h => h⟩

theorem putBody_inv (rec1 : RState → Nat → Bool × RState)
    (hrec : ∀ s c, PutInv s (rec1 s c)) (st1 : RState) (c : Nat) :
    PutInv st1 (putBody rec1 st1 c) := by
  unfold putBody
  by_cases hb : st1.length ≤ st1.written
  · rw [if_pos hb]
    exact ⟨rfl, le_refl _, fun i _ => rfl, fun _ => ⟨rfl, rfl, rfl⟩,
      fun h => le_trans h (Nat.le_succ _), fun h _ => h, fun h => h⟩
  · rw [if_neg hb]
    by_cases hf : st1.flat ∧ isSpaceC c ∧ (st1.space ∨ st1.cr)
    · rw [if_pos hf]
      exact ⟨rfl, le_refl _, fun i _ => rfl, fun hfull => absurd hfull hb,
        fun h => le_trans h (Nat.le_succ _), fun h _ => h, fun h => h⟩
    · rw [if_neg hf]
      have h2w : (if st1.flat then { st1 with space := isSpaceC c } else st1).written
          = st1.written := by
        by_cases h : st1.flat <;> simp [h]
      have h2l : (if st1.flat then { st1 with space := isSpaceC c } else st1).length
          = st1.length := by
        by_cases h : st1.flat <;> simp [h]
      have h2b : (if st1.flat then { st1 with space := isSpaceC c } else st1).buf
          = st1.buf := by
        by_cases h : st1.flat <;> simp [h]
      have h2n : (if st1.flat then { st1 with space := isSpaceC c } else st1).nl
          = st1.nl := by
        by_cases h : st1.flat <;> simp [h]
      obtain ⟨aL, aM, aF, aB1, aB2, aNl⟩ :=
        putAfterFlat_spec rec1 hrec
          (if st1.flat then { st1 with space := isSpaceC c } else st1)
          (if st1.flat ∧ isSpaceC c then 32 else c)
          (by rw [h2w, h2l]; omega)
      rw [h2w] at aM
      rw [h2l] at aL aB1 aB2
      rw [h2b] at aF
      rw [h2n] at aNl aB2
      exact ⟨aL, aM, fun i hi => aF i (by rw [h2w]; exact hi),
        fun hfull => absurd hfull hb, fun _ => aB1, fun _ hnl => aB2 hnl, aNl⟩

theorem putF_inv : ∀ (fuel : Nat) (st : RState) (c : Nat), PutInv st (putF fuel st c) := by
  intro fuel
  induction fuel with
  | zero =>
    intro st c
    exact ⟨rfl, le_refl _, fun i _ => rfl, fun _ => ⟨rfl, rfl, rfl⟩,
      fun h => le_trans h (Nat.le_succ _), fun h _ => h, fun h => h⟩
  | succ fuel ih =>
    intro st c
    obtain ⟨sL, sM, sF, sFull, sB1, sB2, sNl⟩ := signStep_spec (putF fuel) ih st c
    obtain ⟨bL, bM, bF, bFull, bB1, bB2, bNl⟩ :=
      putBody_inv (putF fuel) ih (signStep (putF fuel) st c) c
    show PutInv st (putBody (putF fuel) (signStep (putF fuel) st c) c)
    refine ⟨by rw [bL, sL], le_trans sM bM, ?_, ?_, ?_, ?_, ?_⟩
    · intro i hi
      rcases hi with hi | hi
      · rw [bF i (Or.inl (lt_of_lt_of_le hi sM)), sF i (Or.inl hi)]
      · rw [bF i (Or.inr hi), sF i (Or.inr (le_trans bM hi))]
    · intro hfull
      obtain ⟨e1, e2⟩ := sFull hfull
      have hfull1 : (signStep (putF fuel) st c).length ≤ (signStep (putF fuel) st c).written := by
        rw [sL, e1]
        exact hfull
      obtain ⟨g1, g2, g3⟩ := bFull hfull1
      exact ⟨g1, by rw [g2, e1], by rw [g3, e2]⟩
    · intro hw
      rcases le_or_lt (signStep (putF fuel) st c).written st.length with hle | hlt
      · have := bB1 (by rw [sL]; exact hle)
        rw [sL] at this
        exact this
      · have hfull1 : (signStep (putF fuel) st c).length ≤ (signStep (putF fuel) st c).written := by
          rw [sL]
          omega
        obtain ⟨g1, g2, g3⟩ := bFull hfull1
        rw [g2]
        exact sB1 hw
    · intro hw hnl
      have h1 : (signStep (putF fuel) st c).written ≤ st.length := sB2 hw hnl
      have h2 : (signStep (putF fuel) st c).nl = false := by
        cases hcase : (signStep (putF fuel) st c).nl with
        | false => rfl
        | true => rw [sNl hcase] at hnl; exact absurd hnl (by simp)
      have := bB2 (by rw [sL]; exact h1) h2
      rw [sL] at this
      exact this
    · intro hnl
      exact sNl (bNl hnl)

/-- C10 (amended): for a renderer with a fixed-size target buffer,
`renderer::put(char)` preserves the capacity, only advances the write
cursor, touches only bytes in the window `[written, written')`, returns
false leaving the buffer and cursor unchanged once `written ≥ length`,
and never moves the cursor beyond `length + 1`; when no newline flush is
pending (`nl` false at entry), the cursor never exceeds `length` and no
byte at or past `length` is touched.  (With `nl` set, flushing the
pending newline can fill the last free byte and the following unguarded
store `target[written++] = c` then lands one byte past the buffer — see
the counterexample.) -/
theorem c10_put_bounds (st : RState) (c : Nat) :
    (renderer.put st c).2.length = st.length ∧
    st.written ≤ (renderer.put st c).2.written ∧
    (∀ i, i < st.written ∨ (renderer.put st c).2.written ≤ i →
      (renderer.put st c).2.buf i = st.buf i) ∧
    (st.length ≤ st.written →
      (renderer.put st c).1 = false ∧
      (renderer.put st c).2.written = st.written ∧
      (renderer.put st c).2.buf = st.buf) ∧
    (st.written ≤ st.length → (renderer.put st c).2.written ≤ st.length + 1) ∧
    (st.written ≤ st.length → st.nl = false →
      (renderer.put st c).2.written ≤ st.length ∧
      ∀ i, st.length ≤ i → (renderer.put st c).2.buf i = st.buf i) := by
  obtain ⟨hL, hM, hF, hFull, hB1, hB2, _⟩ := putF_inv 4 st c
  refine ⟨hL, hM, hF, hFull, hB1, ?_⟩
  intro hw hnl
  have hb := hB2 hw hnl
  exact ⟨hb, fun i hi => hF i (Or.inr (le_trans hb hi))⟩

/-- C10 counterexample to the claim as stated: with capacity 1, cursor 0
and a pending newline (`nl` set), putting a printable character first
flushes `'\n'` into the last free byte (the guarded recursive
`put('\n')`), and the subsequent unguarded store `target[written++] = c`
then writes the character at index 1 — one byte past the buffer — leaving
`written = 2 > length = 1`. -/
theorem c10_counterexample :
    ((renderer.put ⟨fun _ => 0, 1, 0, false, false, false, false, true, false, 0⟩ 65).2.written
      = 2) ∧
    ((renderer.put ⟨fun _ => 0, 1, 0, false, false, false, false, true, false, 0⟩ 65).2.buf 1
      = 65) ∧
    (RState.mk (fun _ => 0) 1 0 false false false false true false 0).length = 1 ∧
    (RState.mk (fun _ => 0) 1 0 false false false false true false 0).buf 1 = 0 := by
  refine ⟨by decide, by decide, rfl, rfl⟩

theorem c10_witness :
    (renderer.put ⟨fun _ => 0, 4, 1, false, false, false, false, false, false, 0⟩ 65).2.length
      = (RState.mk (fun _ => 0) 4 1 false false false false false false 0).length ∧
    (RState.mk (fun _ => 0) 4 1 false false false false false false 0).written
      ≤ (renderer.put ⟨fun _ => 0, 4, 1, false, false, false, false, false, false, 0⟩ 65).2.written ∧
    (∀ i, i < (RState.mk (fun _ => 0) 4 1 false false false false false false 0).written ∨
        (renderer.put ⟨fun _ => 0, 4, 1, false, false, false, false, false, false, 0⟩ 65).2.written ≤ i →
      (renderer.put ⟨fun _ => 0, 4, 1, false, false, false, false, false, false, 0⟩ 65).2.buf i
        = (RState.mk (fun _ => 0) 4 1 false false false false false false 0).buf i) ∧
    ((RState.mk (fun _ => 0) 4 1 false false false false false false 0).length
        ≤ (RState.mk (fun _ => 0) 4 1 false false false false false false 0).written →
      (renderer.put ⟨fun _ => 0, 4, 1, false, false, false, false, false, false, 0⟩ 65).1 = false ∧
      (renderer.put ⟨fun _ => 0, 4, 1, false, false, false, false, false, false, 0⟩ 65).2.written
        = (RState.mk (fun _ => 0) 4 1 false false false false false false 0).written ∧
      (renderer.put ⟨fun _ => 0, 4, 1, false, false, false, false, false, false, 0⟩ 65).2.buf
        = (RState.mk (fun _ => 0) 4 1 false false false false false false 0).buf) ∧
    ((RState.mk (fun _ => 0) 4 1 false false false false false false 0).written
        ≤ (RState.mk (fun _ => 0) 4 1 false false false false false false 0).length →
      (renderer.put ⟨fun _ => 0, 4, 1, false, false, false, false, false, false, 0⟩ 65).2.written
        ≤ (RState.mk (fun _ => 0) 4 1 false false false false false false 0).length + 1) ∧
    ((RState.mk (fun _ => 0) 4 1 false false false false false false 0).written
        ≤ (RState.mk (fun _ => 0) 4 1 false false false false false false 0).length →
      (RState.mk (fun _ => 0) 4 1 false false false false false false 0).nl = false →
      (renderer.put ⟨fun _ => 0, 4, 1, false, false, false, false, false, false, 0⟩ 65).2.written
        ≤ (RState.mk (fun _ => 0) 4 1 false false false false false false 0).length ∧
      ∀ i, (RState.mk (fun _ => 0) 4 1 false false false false false false 0).length ≤ i →
        (renderer.put ⟨fun _ => 0, 4, 1, false, false, false, false, false, false, 0⟩ 65).2.buf i
          = (RState.mk (fun _ => 0) 4 1 false false false false false false 0).buf i) :=
  c10_put_bounds ⟨fun _ => 0, 4, 1, false, false, false, false, false, false, 0⟩ 65

end DB48X
